import Mathlib

/-!
# goUtils: string helpers (`utils.go`, `structs.go`)

A shallow embedding of the text helpers of the package: `Purify`, `UniqueInt`,
`UniqueStrings`, `TokenizeStrings` and `ShortenString`, followed by the properties
proved about them.

Conventions of the embedding

* A Go `string` is a sequence of bytes; `len`, slicing, `strings.Replace` and string
  comparison all work on bytes, so a string is a `List Nat` of byte values.
* A Go panic (slice bound out of range, nil pointer dereference) is the result `none`.
* Functions of imported packages whose behaviour depends on Unicode tables or on an
  HTML state machine (`strip.StripTags`, the non-ASCII paths of `strings.ToLower` and
  `strings.Fields`) are fields of `Lib`, a parameter of the embedding.
* The package-level table `StopWords` is declared outside the two source files and is
  a parameter as well.
-/

set_option linter.unusedVariables false

namespace GoUtils

/-! ## Strings -/

/-- A Go string, as the list of its bytes. -/
abbrev Str := List Nat

/-- The bytes (UTF-8) of a string literal. -/
def bytes (s : String) : Str :=
  (s.toList.flatMap String.utf8EncodeChar).map UInt8.toNat

/-- Go `len(s) < limit` style conversions use the byte length. -/
def len (s : Str) : Int := (s.length : Int)

/-- Worker of `Replace`: `skip` counts the bytes of a match still to be dropped. -/
def replaceAux (old new : Str) : Nat → Str → Str
  | _, [] => []
  | skip + 1, _ :: cs => replaceAux old new skip cs
  | 0, c :: cs =>
    if old.isPrefixOf (c :: cs) then new ++ replaceAux old new (old.length - 1) cs
    else c :: replaceAux old new 0 cs

/-- Go `strings.Replace(s, old, new, -1)` for a non-empty `old`: every
non-overlapping occurrence of `old`, found from left to right, becomes `new`.
Every call in the package passes a non-empty `old`; for an empty `old` the string is
returned as it is (the library would insert `new` at every rune boundary). -/
def Replace (s old new : Str) : Str :=
  if old = [] then s else replaceAux old new 0 s

/-- Go `strings.Repeat(s, count)`. -/
def Repeat (s : Str) : Nat → Str
  | 0 => []
  | n + 1 => s ++ Repeat s n

/-- Go `strings.Join(elems, sep)`. -/
def Join : List Str → Str → Str
  | [], _ => []
  | [a], _ => a
  | a :: b :: rest, sep => a ++ sep ++ Join (b :: rest) sep

/-- Worker of `Split`, with the same `skip` counter as `replaceAux`. -/
def splitAux (sep : Str) : Nat → Str → List Str
  | _, [] => [[]]
  | skip + 1, _ :: cs => splitAux sep skip cs
  | 0, c :: cs =>
    if sep.isPrefixOf (c :: cs) then [] :: splitAux sep (sep.length - 1) cs
    else
      match splitAux sep 0 cs with
      | [] => [[c]]
      | w :: ws => (c :: w) :: ws

/-- Go `strings.Split(s, sep)` for a non-empty `sep` (the package only splits on
`" "`): the pieces between the occurrences of `sep`, empty pieces included, so the
result of splitting `""` is the one-element list `[""]`. -/
def Split (s sep : Str) : List Str := splitAux sep 0 s

/-- Go `strings.Trim(s, cutset)` for an ASCII `cutset` (the package trims `" "`):
leading and trailing bytes that occur in `cutset` are removed. -/
def Trim (s cutset : Str) : Str :=
  ((s.dropWhile (fun c => decide (c ∈ cutset))).reverse.dropWhile
    (fun c => decide (c ∈ cutset))).reverse

/-- The table `asciiSpace` of package `strings`: tab, newline, vertical tab, form
feed, carriage return and space. -/
def asciiSpace (c : Nat) : Bool :=
  c == 9 || c == 10 || c == 11 || c == 12 || c == 13 || c == 32

/-- The ASCII path of `strings.Fields`: `cur` is the field being read, reversed. -/
def fieldsAux : Str → Str → List Str
  | cur, [] => if cur = [] then [] else [cur.reverse]
  | cur, c :: cs =>
    if asciiSpace c then
      (if cur = [] then fieldsAux [] cs else cur.reverse :: fieldsAux [] cs)
    else fieldsAux (c :: cur) cs

/-- Lower-casing of one ASCII byte. -/
def lowerByte (c : Nat) : Nat := if 65 ≤ c ∧ c ≤ 90 then c + 32 else c

/-- Whether a byte is an ASCII letter or digit: the class `[a-zA-Z0-9]`. -/
def isAlnum (c : Nat) : Bool :=
  (48 ≤ c && c ≤ 57) || (65 ≤ c && c ≤ 90) || (97 ≤ c && c ≤ 122)

/-- The value of `regexp.MustCompile("([^a-zA-Z0-9]+)").ReplaceAllString(s, repl)`
for a `repl` without `$`: every maximal run of bytes outside `[a-zA-Z0-9]` becomes
`repl`. `inRun` tells that the previous byte belonged to such a run. -/
def replaceNonAlnumRuns (repl : Str) : Bool → Str → Str
  | _, [] => []
  | inRun, c :: cs =>
    if isAlnum c then c :: replaceNonAlnumRuns repl false cs
    else if inRun then replaceNonAlnumRuns repl true cs
    else repl ++ replaceNonAlnumRuns repl true cs

/-- Go string comparison `a < b`: lexicographic on bytes. -/
def strLess : Str → Str → Bool
  | _, [] => false
  | [], _ :: _ => true
  | a :: as, b :: bs => if a < b then true else if b < a then false else strLess as bs

/-- Insertion of one string into an ascending list. -/
def insertSorted (x : Str) : List Str → List Str
  | [] => [x]
  | y :: ys => if strLess y x then y :: insertSorted x ys else x :: y :: ys

/-- Go `sort.Strings`: the ascending arrangement of the list. The order on strings is
total, so that arrangement is unique whatever algorithm the library runs. -/
def sortStrings : List Str → List Str
  | [] => []
  | x :: xs => insertSorted x (sortStrings xs)

/-! ## Imported packages and package-level data -/

/-- The functions of imported packages that the embedding does not define. -/
structure Lib where
  /-- Function `StripTags` of `github.com/grokify/html-strip-tags-go`. -/
  StripTags : Str → Str
  /-- The value `strings.Map(unicode.ToLower, s)`, which `strings.ToLower` returns
  for a string with a byte of 0x80 or more. -/
  mapLower : Str → Str
  /-- The value `strings.FieldsFunc(s, unicode.IsSpace)`, which `strings.Fields`
  returns for a string with a byte of 0x80 or more. -/
  fieldsFunc : Str → List Str

/-- Go `strings.ToLower`: ASCII-only strings are lowered byte by byte, the others go
through the Unicode mapping. -/
def ToLower (L : Lib) (s : Str) : Str :=
  if s.all (fun c => decide (c < 128)) then s.map lowerByte else L.mapLower s

/-- Go `strings.Fields`: ASCII-only strings are cut at runs of `asciiSpace` bytes,
the others go through `FieldsFunc`. -/
def Fields (L : Lib) (s : Str) : List Str :=
  if s.all (fun c => decide (c < 128)) then fieldsAux [] s else L.fieldsFunc s

/-- Modelled from the spec: the tag stripper is an imported utility ("input text with
inline tags in, plain text with tag content preserved and tags removed out"; "closed
tags are removed; their text content is retained"). A `<` that is closed by a later
`>` is dropped together with everything up to that `>`; all other bytes are kept. -/
def stripClosedTags : Nat → Str → Str
  | _, [] => []
  | skip + 1, _ :: cs => stripClosedTags skip cs
  | 0, c :: cs =>
    if c = 60 ∧ 62 ∈ cs then stripClosedTags (cs.indexOf 62 + 1) cs
    else c :: stripClosedTags 0 cs

/-- An instance of `Lib` on which concrete ASCII inputs are evaluated: the tag
stripper is `stripClosedTags`; the two Unicode paths, which an ASCII-only string
never reaches, are filled with their ASCII counterparts. -/
def asciiLib : Lib where
  StripTags := stripClosedTags 0
  mapLower := fun s => s.map lowerByte
  fieldsFunc := fun s => fieldsAux [] s

/-- The type of the package-level `StopWords`, a `map[string][]string`: language code
to stop-word list. A code without an entry is looked up as `nil`. -/
abbrev StopTable := List (Str × List Str)

/-- The value `StopWords[code]` as a `range` loop sees it: the list of the entry, or no
element at all when there is no entry. -/
def stopWordsOf (StopWords : StopTable) (code : Str) : List Str :=
  match StopWords.lookup code with
  | some ws => ws
  | none => []

/-! ## `structs.go` -/

/-- The struct `Options`. The two Prometheus vectors are pointers to values of an
imported package; a pointer is `none` when nil and a handle otherwise. -/
structure Options where
  EnvironmentVarPrefix : Str
  EnvironmentVarSeparator : Str
  SentryURL : Str
  PurifyReplacer : Str
  PrometheusRequestsVector : Option Nat
  PrometheusHandlersVector : Option Nat
  LanguageISOCode : Str
deriving DecidableEq, Repr

/-- The struct `Utils`; `options` is a pointer, `none` until `Configure` has set it. -/
structure Utils where
  options : Option Options
deriving DecidableEq, Repr

/-! ## `utils.go` -/

/-- The method `Configure`. `options` is a pointer: it is stored, and the read of its
field `LanguageISOCode` panics when it is nil. -/
def Configure (u : Utils) (options : Option Options) : Option Utils :=
  match options with
  | none => none
  | some o =>
    let stored := if o.LanguageISOCode = [] then { o with LanguageISOCode := bytes "en" } else o
    some { options := some stored }

/-- The method `Purify`. The value of `ReplaceAllString` is computed and dropped, as in
the source, and the last replacement reads `u.options.PurifyReplacer`, not the
argument `replacer`; with a nil `u.options` that read panics. -/
def Purify (L : Lib) (u : Utils) (str : Str) (replacer : Str) : Option Str :=
  let defaultReplacer := bytes "-"
  let str := ToLower L str
  let str := Replace str (bytes " ") defaultReplacer
  let str := Replace str (bytes "&quot;") defaultReplacer
  let str := Replace str (bytes "&#039;") defaultReplacer
  let str := Replace str (bytes "#039;") defaultReplacer
  let str := Replace str (bytes "#39;") defaultReplacer
  let str := Replace str (bytes "&amp;") defaultReplacer
  let _unused := replaceNonAlnumRuns defaultReplacer false str
  let str := Replace str (Repeat defaultReplacer 5) defaultReplacer
  let str := Replace str (Repeat defaultReplacer 4) defaultReplacer
  let str := Replace str (Repeat defaultReplacer 3) defaultReplacer
  let str := Replace str (Repeat defaultReplacer 2) defaultReplacer
  match u.options with
  | none => none
  | some o => some (Replace str defaultReplacer o.PurifyReplacer)

/-- One iteration of the loop of `UniqueInt` and `UniqueStrings`: `st.1` is the slice
`r`, `st.2` the keys of the map `m`. -/
def uniqueStep {α : Type} [DecidableEq α] (st : List α × List α) (val : α) :
    List α × List α :=
  if val ∈ st.2 then st else (st.1 ++ [val], val :: st.2)

/-- The method `UniqueInt`; an `int64` is an integer, and only equality is used. -/
def UniqueInt (input : List Int) : List Int :=
  (input.foldl uniqueStep ([], [])).1

/-- The method `UniqueStrings`. -/
def UniqueStrings (input : List Str) : List Str :=
  (input.foldl uniqueStep ([], [])).1

/-- The slice `extraReplacements` of `TokenizeStrings`. -/
def extraReplacements : List Str :=
  ["~", "\x60", "!", "@", "#", "$", "%", "^", "&", "*", "(", ")", "-", "_", "=", "+",
   "<", ",", ">", ".", "?", "/", ":", ";", "\x27", "\x7b", "[", "\x7d", "]", "\x5c",
   "|"].map bytes

/-- The method `TokenizeStrings`, with the variadic argument as a list. -/
def TokenizeStrings (L : Lib) (StopWords : StopTable) (u : Utils)
    (normalStrings : List Str) : Option Str := do
  let fullText := normalStrings.foldl
    (fun acc ns => acc ++ (bytes " " ++ ToLower L (L.StripTags ns))) []
  let fullTextPurified ← Purify L u fullText (bytes " ")
  let fullTextDuplicates := Fields L fullTextPurified
  let fullTextDeduplicated := sortStrings (UniqueStrings fullTextDuplicates)
  let fullTextString := bytes " " ++ Join fullTextDeduplicated (bytes " ") ++ bytes " "
  let o ← u.options
  let fullTextString := (stopWordsOf StopWords o.LanguageISOCode).foldl
    (fun acc stopWord => Replace acc (bytes " " ++ stopWord ++ bytes " ") (bytes " "))
    fullTextString
  let fullTextString := Trim fullTextString (bytes " ")
  let fullTextString := extraReplacements.foldl
    (fun acc er => Replace acc er (bytes " ")) fullTextString
  let fullTextString ← Purify L u fullTextString (bytes " ")
  some (Trim fullTextString (bytes " "))

/-- The method `ShortenString`; the receiver is not used. `limit` is a Go `int`.
The slice expression `str[:limit]` on a string panics unless `limit ≤ len(str)`. For
`strSliced[:limit]` the bound is the capacity of the slice, which is at least its
length; the check is written against the length and never fails, since `limit` has
just been clamped to it. -/
def ShortenString (L : Lib) (str : Str) (limit : Int) (useWords addEllipsis : Bool) :
    Option Str :=
  if str = [] then some []
  else
    let limit := if len str < limit then len str else limit
    let limit := if limit < 0 then 0 else limit
    let str := L.StripTags str
    if !useWords then
      (if limit.toNat ≤ str.length then some (str.take limit.toNat) else none)
    else
      let strSliced := Split str (bytes " ")
      let small := decide ((strSliced.length : Int) < limit)
      let limit := if small then (strSliced.length : Int) else limit
      let addEllipsis := if small then false else addEllipsis
      let limit := if limit < 0 then 0 else limit
      if limit.toNat ≤ strSliced.length then
        let str := Join (strSliced.take limit.toNat) (bytes " ")
        some (if addEllipsis then str ++ bytes "..." else str)
      else none

/-! ## Reference definitions used in the statements -/

/-- The elements of `xs` at the positions whose value does not occur at an earlier
position. -/
def firstOccurrences {α : Type} [DecidableEq α] (xs : List α) : List α :=
  (xs.enum.filter (fun p => decide (p.2 ∉ xs.take p.1))).map Prod.snd

/-- The words of the tag-stripped input: its pieces between single spaces. -/
def strippedWords (L : Lib) (str : Str) : List Str :=
  Split (L.StripTags str) (bytes " ")

/-- The configuration with the given separator and language code, the other fields
empty. -/
def mkUtils (replacer code : Str) : Utils :=
  { options := some
      { EnvironmentVarPrefix := [], EnvironmentVarSeparator := [], SentryURL := [],
        PurifyReplacer := replacer, PrometheusRequestsVector := none,
        PrometheusHandlersVector := none, LanguageISOCode := code } }

/-- The steps of `Purify` before the collapse (lines 32 to 40 of `utils.go`): lower
case, then every space and every entity artifact becomes `-`. -/
def purifyPrepare (L : Lib) (str : Str) : Str :=
  let defaultReplacer := bytes "-"
  let str := ToLower L str
  let str := Replace str (bytes " ") defaultReplacer
  let str := Replace str (bytes "&quot;") defaultReplacer
  let str := Replace str (bytes "&#039;") defaultReplacer
  let str := Replace str (bytes "#039;") defaultReplacer
  let str := Replace str (bytes "#39;") defaultReplacer
  Replace str (bytes "&amp;") defaultReplacer

/-- The collapse of `Purify` (lines 47 to 50 of `utils.go`): the runs of five, four,
three and two `-` are replaced by one `-`, in that order. -/
def collapseFixed (str : Str) : Str :=
  let defaultReplacer := bytes "-"
  let str := Replace str (Repeat defaultReplacer 5) defaultReplacer
  let str := Replace str (Repeat defaultReplacer 4) defaultReplacer
  let str := Replace str (Repeat defaultReplacer 3) defaultReplacer
  Replace str (Repeat defaultReplacer 2) defaultReplacer

/-- The general collapse the specification compares with: every run of `-` becomes
one `-`. -/
def collapseRuns : Str → Str
  | [] => []
  | c :: cs => if c = 45 ∧ cs.head? = some 45 then collapseRuns cs else c :: collapseRuns cs

/-- The input with `n` spaces between the letters `a` and `b`. -/
def spacedInput (n : Nat) : Str := bytes "a" ++ Repeat (bytes " ") n ++ bytes "b"

/-- Whether a byte is a digit or a lower-case ASCII letter. -/
def isWordByte (c : Nat) : Bool := (48 ≤ c && c ≤ 57) || (97 ≤ c && c ≤ 122)

/-- The words of a string: its non-empty pieces between spaces. -/
def wordsOf (s : Str) : List Str := (s.splitOn 32).filter (fun w => decide (w ≠ []))

/-- The string `r` is the string `s` without some of its bytes `c`, each of the bytes
left out standing right before a byte `c` that is kept: runs of `c` get shorter and
none disappears. -/
inductive Shrink (c : Nat) : Str → Str → Prop
  | nil : Shrink c [] []
  | keep (x : Nat) {s r : Str} : Shrink c s r → Shrink c (x :: s) (x :: r)
  | drop {s r : Str} : Shrink c s (c :: r) → Shrink c (c :: s) (c :: r)

/-- A space, then every token followed by a space: the padded text of
`TokenizeStrings` for a non-empty token list. -/
def spaced (T : List Str) : Str := 32 :: T.flatMap (fun t => t ++ [32])

/-- The naive reference of `TokenizeStrings` on clean input, as a token list: the
lower-cased words of all the fields, without those in `stops`, each kept once, in
ascending order. -/
def naiveTokens (stops : List Str) (fields : List Str) : List Str :=
  sortStrings (((fields.flatMap (fun f => wordsOf (f.map lowerByte))).filter
    (fun w => decide (w ∉ stops))).dedup)

/-! ## Lemmas -/

theorem uniqueStep_foldl {α : Type} [DecidableEq α] (xs : List α) :
    ∀ r m : List α, (xs.foldl uniqueStep (r, m)).1 =
      r ++ (xs.enum.filter (fun p => decide (p.2 ∉ m ∧ p.2 ∉ xs.take p.1))).map Prod.snd := by
  induction xs with
  | nil => intro r m; simp
  | cons x t ih =>
    intro r m
    have key : ∀ m2 : List α, (∀ y, (y ∉ m ∧ y ≠ x) ↔ y ∉ m2) →
        List.map Prod.snd (List.map (Prod.map (fun i => i + 1) id)
          (List.filter ((fun p => decide (p.2 ∉ m ∧ p.2 ∉ List.take p.1 (x :: t))) ∘
            Prod.map (fun i => i + 1) id) t.enum)) =
        List.map Prod.snd (List.filter (fun p => decide (p.2 ∉ m2 ∧ p.2 ∉ List.take p.1 t))
          t.enum) := by
      intro m2 hm2
      rw [List.map_map]
      have hfun : (Prod.snd ∘ Prod.map (fun i => i + 1) id : Nat × α → α) = Prod.snd := by
        funext p; rfl
      rw [hfun]
      congr 1
      apply List.filter_congr
      rintro ⟨i, y⟩ _
      simp only [Function.comp, Prod.map, id, List.take_succ_cons, List.mem_cons, not_or]
      rw [decide_eq_decide, ← hm2 y]
      tauto
    rw [List.foldl_cons, List.enum_cons', List.filter_cons, List.filter_map]
    by_cases hx : x ∈ m
    · have hstep : uniqueStep (r, m) x = (r, m) := by simp [uniqueStep, hx]
      rw [hstep, ih r m, if_neg (by simp [hx]), key m]
      intro y
      constructor
      · exact fun h => h.1
      · exact fun h => ⟨h, fun e => h (e ▸ hx)⟩
    · have hstep : uniqueStep (r, m) x = (r ++ [x], x :: m) := by simp [uniqueStep, hx]
      rw [hstep, ih (r ++ [x]) (x :: m), if_pos (by simp [hx]), List.map_cons, key (x :: m)]
      · simp
      · intro y
        simp only [List.mem_cons, not_or]
        tauto

theorem uniqueStep_foldl_nil {α : Type} [DecidableEq α] (xs : List α) :
    (xs.foldl uniqueStep ([], [])).1 = firstOccurrences xs := by
  rw [uniqueStep_foldl]
  simp [firstOccurrences]

theorem uniqueStep_foldl_inv {α : Type} [DecidableEq α] (xs : List α) :
    ∀ r m : List α, (∀ a, a ∈ r ↔ a ∈ m) → r.Nodup →
      ((xs.foldl uniqueStep (r, m)).1).Nodup ∧
      ∀ a, a ∈ (xs.foldl uniqueStep (r, m)).1 ↔ a ∈ r ∨ a ∈ xs := by
  induction xs with
  | nil => intro r m _ hnd; simp [hnd]
  | cons x t ih =>
    intro r m hrm hnd
    rw [List.foldl_cons]
    by_cases hx : x ∈ m
    · have hstep : uniqueStep (r, m) x = (r, m) := by simp [uniqueStep, hx]
      rw [hstep]
      obtain ⟨h1, h2⟩ := ih r m hrm hnd
      refine ⟨h1, fun a => ?_⟩
      rw [h2 a, List.mem_cons]
      constructor
      · rintro (h | h)
        · exact Or.inl h
        · exact Or.inr (Or.inr h)
      · rintro (h | h | h)
        · exact Or.inl h
        · exact Or.inl (h ▸ (hrm x).2 hx)
        · exact Or.inr h
    · have hstep : uniqueStep (r, m) x = (r ++ [x], x :: m) := by simp [uniqueStep, hx]
      rw [hstep]
      have hxr : x ∉ r := fun h => hx ((hrm x).1 h)
      obtain ⟨h1, h2⟩ := ih (r ++ [x]) (x :: m)
        (by intro a; simp only [List.mem_append, List.mem_singleton, List.mem_cons, hrm a]; tauto)
        (by
          rw [List.nodup_append]
          refine ⟨hnd, List.nodup_singleton x, ?_⟩
          intro a ha hb
          rw [List.mem_singleton] at hb
          exact hxr (hb ▸ ha))
      refine ⟨h1, fun a => ?_⟩
      rw [h2 a]
      simp only [List.mem_append, List.mem_singleton, List.mem_cons]
      tauto

theorem clamp_min (m n : Nat) :
    (if (if (m : Int) < (n : Int) then (m : Int) else (n : Int)) < 0 then (0 : Int)
      else (if (m : Int) < (n : Int) then (m : Int) else (n : Int))) = ((min n m : Nat) : Int) := by
  split_ifs <;> omega

theorem uniqueStep_foldl_nodup {α : Type} [DecidableEq α] (l : List α) :
    ∀ r m : List α, l.Nodup → (∀ a ∈ l, a ∉ m) →
      (l.foldl uniqueStep (r, m)).1 = r ++ l := by
  induction l with
  | nil => intro r m _ _; simp
  | cons x t ih =>
    intro r m hnd hm
    have hx : x ∉ m := hm x (List.mem_cons_self x t)
    have hstep : uniqueStep (r, m) x = (r ++ [x], x :: m) := by simp [uniqueStep, hx]
    rw [List.foldl_cons, hstep, ih (r ++ [x]) (x :: m) (List.nodup_cons.1 hnd).2]
    · simp
    · intro a ha
      rw [List.mem_cons, not_or]
      refine ⟨?_, hm a (List.mem_cons_of_mem x ha)⟩
      intro h
      exact (List.nodup_cons.1 hnd).1 (h ▸ ha)

theorem bytes_dash : bytes "-" = [45] := by decide

theorem bytes_space : bytes " " = [32] := by decide

theorem Purify_eq (L : Lib) (u : Utils) (s sep : Str) :
    Purify L u s sep = u.options.map
      (fun o => Replace (collapseFixed (purifyPrepare L s)) (bytes "-") o.PurifyReplacer) := by
  cases u with
  | mk options => cases options <;> rfl

theorem ToLower_ascii (L : Lib) (s : Str) (h : s.all (fun c => decide (c < 128)) = true) :
    ToLower L s = s.map lowerByte := by
  simp only [ToLower, h, if_true]

theorem Fields_ascii (L : Lib) (s : Str) (h : s.all (fun c => decide (c < 128)) = true) :
    Fields L s = fieldsAux [] s := by
  simp only [Fields, h, if_true]

theorem Purify_ascii (L : Lib) (u : Utils) (s sep : Str)
    (h : s.all (fun c => decide (c < 128)) = true) :
    Purify L u s sep = Purify asciiLib u s sep := by
  simp only [Purify, ToLower_ascii L s h, ToLower_ascii asciiLib s h]

theorem isPrefixOf_append_cons_of_not_mem (x : Nat) (v : Str) :
    ∀ (old w : Str), x ∉ old → old.isPrefixOf (w ++ x :: v) = old.isPrefixOf w := by
  intro old
  induction old with
  | nil => intro w _; simp
  | cons o os ih =>
    intro w hx
    have hox : o ≠ x := fun h => hx (h ▸ List.mem_cons_self o os)
    have hxs : x ∉ os := fun h => hx (List.mem_cons_of_mem o h)
    cases w with
    | nil => simp [List.isPrefixOf, hox]
    | cons c w2 =>
      simp only [List.cons_append, List.isPrefixOf, List.append_eq, ih w2 hxs]

theorem length_le_of_isPrefixOf :
    ∀ (old w : Str), old.isPrefixOf w = true → old.length ≤ w.length := by
  intro old w h
  exact (List.isPrefixOf_iff_prefix.1 h).length_le

theorem replaceAux_split (old new : Str) (x : Nat) (v : Str) (hold : old ≠ [])
    (hx : x ∉ old) :
    ∀ (u : Str) (skip : Nat), skip ≤ u.length →
      replaceAux old new skip (u ++ x :: v) =
        replaceAux old new skip u ++ x :: replaceAux old new 0 v := by
  intro u
  induction u with
  | nil =>
    intro skip hs
    have h0 : skip = 0 := by simpa using hs
    subst h0
    have hp : old.isPrefixOf (x :: v) = false := by
      cases old with
      | nil => exact absurd rfl hold
      | cons o os =>
        have hox : o ≠ x := fun h => hx (h ▸ List.mem_cons_self o os)
        simp [List.isPrefixOf, hox]
    simp [replaceAux, hp]
  | cons c u2 ih =>
    intro skip hs
    cases skip with
    | succ k =>
      simp only [List.cons_append, replaceAux, List.append_eq]
      exact ih k (by simpa using hs)
    | zero =>
      have hp := isPrefixOf_append_cons_of_not_mem x v old (c :: u2) hx
      simp only [List.cons_append] at hp
      simp only [List.cons_append, replaceAux, List.append_eq, hp]
      by_cases hm : old.isPrefixOf (c :: u2) = true
      · have hl := length_le_of_isPrefixOf old (c :: u2) hm
        simp only [List.length_cons] at hl
        rw [if_pos hm, if_pos hm, ih (old.length - 1) (by omega), List.append_assoc]
      · rw [if_neg hm, if_neg hm, ih 0 (Nat.zero_le _), List.cons_append]

theorem Replace_split (old new : Str) (x : Nat) (u v : Str) (hold : old ≠ [])
    (hx : x ∉ old) :
    Replace (u ++ x :: v) old new = Replace u old new ++ x :: Replace v old new := by
  simp only [Replace, if_neg hold]
  exact replaceAux_split old new x v hold hx u 0 (Nat.zero_le _)

theorem mem_Repeat_dash (x n : Nat) (h : x ∈ Repeat (bytes "-") n) : x = 45 := by
  induction n with
  | zero => simp [Repeat] at h
  | succ k ih =>
    simp only [Repeat, bytes_dash, List.singleton_append, List.mem_cons] at h
    rcases h with h | h
    · exact h
    · exact ih (by simpa [bytes_dash] using h)

theorem collapseFixed_split (x : Nat) (u v : Str) (hx : x ≠ 45) :
    collapseFixed (u ++ x :: v) = collapseFixed u ++ x :: collapseFixed v := by
  have hmem : ∀ n, x ∉ Repeat (bytes "-") n := fun n h => hx (mem_Repeat_dash x n h)
  have hne : ∀ n, Repeat (bytes "-") (n + 1) ≠ [] := by
    intro n
    simp [Repeat, bytes_dash]
  simp only [collapseFixed]
  rw [Replace_split _ _ x u v (hne 4) (hmem 5), Replace_split _ _ x _ _ (hne 3) (hmem 4),
    Replace_split _ _ x _ _ (hne 2) (hmem 3), Replace_split _ _ x _ _ (hne 1) (hmem 2)]

theorem collapseFixed_nil : collapseFixed [] = [] := by decide

theorem collapseFixed_context (a r b : Str) (ha : a.getLast? ≠ some 45)
    (hb : b.head? ≠ some 45) :
    collapseFixed (a ++ r ++ b) = collapseFixed a ++ collapseFixed r ++ collapseFixed b := by
  have right : ∀ t : Str, collapseFixed (t ++ b) = collapseFixed t ++ collapseFixed b := by
    intro t
    cases b with
    | nil => simp [collapseFixed_nil]
    | cons y b2 =>
      have hy : y ≠ 45 := by
        intro h
        exact hb (by simp [h])
      have e := collapseFixed_split y [] b2 hy
      simp only [List.nil_append, collapseFixed_nil] at e
      rw [collapseFixed_split y t b2 hy, e]
  rw [List.append_assoc, List.append_assoc, ← right r]
  rcases List.eq_nil_or_concat a with h | ⟨a2, x, h⟩
  · subst h
    simp [collapseFixed_nil]
  · subst h
    simp only [List.concat_eq_append] at ha ⊢
    have hx : x ≠ 45 := by
      intro h
      exact ha (by simp [h])
    have e := collapseFixed_split x a2 [] hx
    simp only [collapseFixed_nil] at e
    rw [List.append_assoc, List.singleton_append, collapseFixed_split x a2 _ hx, e]
    simp

theorem collapseFixed_short_run :
    ∀ n < 39, 1 ≤ n → collapseFixed (Repeat (bytes "-") n) = bytes "-" := by
  decide

theorem collapseFixed_run_39 : collapseFixed (Repeat (bytes "-") 39) = bytes "--" := by
  decide

theorem replaceAux_single (c : Nat) (new : Str) :
    ∀ s : Str, replaceAux [c] new 0 s = s.flatMap (fun d => if d = c then new else [d]) := by
  intro s
  induction s with
  | nil => rfl
  | cons d t ih =>
    by_cases h : d = c
    · subst h
      simp [replaceAux, List.isPrefixOf, ih]
    · have h2 : c ≠ d := fun e => h e.symm
      simp [replaceAux, List.isPrefixOf, ih, h, h2]

theorem Replace_single_append (c : Nat) (new a b : Str) :
    Replace (a ++ b) [c] new = Replace a [c] new ++ Replace b [c] new := by
  simp [Replace, replaceAux_single]

theorem purifyPrepare_ascii (L : Lib) (s : Str)
    (h : s.all (fun c => decide (c < 128)) = true) :
    purifyPrepare L s = purifyPrepare asciiLib s := by
  simp only [purifyPrepare, ToLower_ascii L s h, ToLower_ascii asciiLib s h]

theorem Replace_dash_dash (r : Str) : Replace [45] [45] r = r := by
  simp [Replace, replaceAux_single]

theorem Purify_run_context (L : Lib) (o : Options) (s sep a b run : Str) (n : Nat)
    (hform : purifyPrepare L s = a ++ Repeat (bytes "-") n ++ b)
    (ha : a.getLast? ≠ some 45) (hb : b.head? ≠ some 45)
    (hrun : collapseFixed (Repeat (bytes "-") n) = run) :
    Purify L { options := some o } s sep =
      some (Replace (collapseFixed a) (bytes "-") o.PurifyReplacer ++
        Replace run (bytes "-") o.PurifyReplacer ++
        Replace (collapseFixed b) (bytes "-") o.PurifyReplacer) := by
  subst hrun
  rw [Purify_eq]
  simp only [Option.map, hform, collapseFixed_context a _ b ha hb, bytes_dash,
    Replace_single_append]

/-! ### Replacement, runs and fields on clean text -/

theorem replaceAux_skip (old new : Str) :
    ∀ (s : Str) (k : Nat), replaceAux old new k s = replaceAux old new 0 (s.drop k) := by
  intro s
  induction s with
  | nil => intro k; cases k <;> rfl
  | cons c cs ih =>
    intro k
    cases k with
    | zero => rfl
    | succ j => simp only [replaceAux, List.drop_succ_cons, ih j]

theorem replaceAux_of_head_not_mem (h : Nat) (os new : Str) :
    ∀ s : Str, h ∉ s → replaceAux (h :: os) new 0 s = s := by
  intro s
  induction s with
  | nil => intro _; rfl
  | cons c cs ih =>
    intro hm
    have hc : h ≠ c := fun e => hm (e ▸ List.mem_cons_self h cs)
    have hcs : h ∉ cs := fun e => hm (List.mem_cons_of_mem c e)
    simp [replaceAux, List.isPrefixOf, hc, ih hcs]

theorem Replace_of_head_not_mem (h : Nat) (os new s : Str) (hm : h ∉ s) :
    Replace s (h :: os) new = s := by
  simp only [Replace, if_neg (List.cons_ne_nil h os)]
  exact replaceAux_of_head_not_mem h os new s hm

theorem Replace_single_map (c d : Nat) (s : Str) :
    Replace s [c] [d] = s.map (fun x => if x = c then d else x) := by
  simp only [Replace, if_neg (List.cons_ne_nil c []), replaceAux_single]
  induction s with
  | nil => rfl
  | cons x t ih =>
    by_cases h : x = c <;> simp [List.flatMap_cons, h, ih]

theorem Repeat_dash_eq (k : Nat) : Repeat (bytes "-") k = List.replicate k 45 := by
  induction k with
  | zero => rfl
  | succ j ih =>
    rw [Repeat, ih, bytes_dash, List.replicate_succ]
    rfl

theorem Shrink_refl (c : Nat) : ∀ s : Str, Shrink c s s := by
  intro s
  induction s with
  | nil => exact Shrink.nil
  | cons x t ih => exact Shrink.keep x ih

theorem Shrink_run (c : Nat) (rest r : Str) (h : Shrink c rest r) :
    ∀ k : Nat, Shrink c (List.replicate (k + 1) c ++ rest) (c :: r) := by
  intro k
  induction k with
  | zero => exact Shrink.keep c h
  | succ j ih =>
    rw [List.replicate_succ, List.cons_append]
    exact Shrink.drop ih

theorem Shrink_replaceAux (c k : Nat) :
    ∀ (n : Nat) (s : Str), s.length ≤ n →
      Shrink c s (replaceAux (List.replicate (k + 1) c) [c] 0 s) := by
  intro n
  induction n with
  | zero =>
    intro s hs
    have : s = [] := List.length_eq_zero.1 (Nat.le_zero.1 hs)
    subst this
    exact Shrink.nil
  | succ m ih =>
    intro s hs
    cases s with
    | nil => exact Shrink.nil
    | cons x t =>
      simp only [replaceAux]
      by_cases hp : (List.replicate (k + 1) c).isPrefixOf (x :: t) = true
      · rw [if_pos hp, replaceAux_skip]
        obtain ⟨rest, hrest⟩ := List.isPrefixOf_iff_prefix.1 hp
        have hlen : rest.length ≤ m := by
          have := congrArg List.length hrest
          simp only [List.length_append, List.length_replicate, List.length_cons] at this
          simp only [List.length_cons] at hs
          omega
        have hdrop : t.drop ((List.replicate (k + 1) c).length - 1) = rest := by
          have e : x :: t = c :: (List.replicate k c ++ rest) := by
            rw [← hrest, List.replicate_succ, List.cons_append]
          have e2 : t = List.replicate k c ++ rest := (List.cons.inj e).2
          rw [e2, List.length_replicate, Nat.add_sub_cancel]
          exact List.drop_left' (List.length_replicate k c)
        rw [hdrop, ← hrest]
        exact Shrink_run c rest _ (ih rest hlen) k
      · rw [if_neg hp]
        exact Shrink.keep x (ih t (by simpa using hs))

theorem Shrink_Replace_dashes (k : Nat) (s : Str) :
    Shrink 45 s (Replace s (Repeat (bytes "-") (k + 1)) (bytes "-")) := by
  rw [Repeat_dash_eq, bytes_dash]
  simp only [Replace, if_neg (by simp [List.replicate_succ] : List.replicate (k + 1) 45 ≠ [])]
  exact Shrink_replaceAux 45 k s.length s (Nat.le_refl _)

theorem Shrink_map (f : Nat → Nat) (c : Nat) (s r : Str) (h : Shrink c s r) :
    Shrink (f c) (s.map f) (r.map f) := by
  induction h with
  | nil => exact Shrink.nil
  | keep x _ ih => exact Shrink.keep (f x) ih
  | drop _ ih => exact Shrink.drop ih

theorem fieldsAux_Shrink (s r : Str) (h : Shrink 32 s r) :
    ∀ cur : Str, fieldsAux cur s = fieldsAux cur r := by
  induction h with
  | nil => intro cur; rfl
  | keep x _ ih =>
    intro cur
    simp only [fieldsAux, ih]
  | drop _ ih =>
    intro cur
    have h32 : asciiSpace 32 = true := by decide
    have e := ih []
    simp only [fieldsAux, h32, if_true] at e ⊢
    rw [e]


/-! ### Sorting -/

theorem strLess_iff_lt : ∀ a b : Str, strLess a b = true ↔ a < b := by
  intro a
  induction a with
  | nil =>
    intro b
    cases b with
    | nil =>
      simp only [strLess, Bool.false_eq_true, false_iff]
      exact List.Lex.not_nil_right _ _
    | cons y ys =>
      simp only [strLess, true_iff]
      exact List.Lex.nil
  | cons x xs ih =>
    intro b
    cases b with
    | nil =>
      simp only [strLess, Bool.false_eq_true, false_iff]
      exact List.Lex.not_nil_right _ _
    | cons y ys =>
      simp only [strLess]
      rcases Nat.lt_trichotomy x y with h | h | h
      · simp only [h, if_true, true_iff]
        exact List.Lex.rel h
      · subst h
        simp only [lt_irrefl, if_false, ih ys]
        exact (List.Lex.cons_iff (r := fun a b : Nat => a < b)).symm
      · have h2 : ¬ x < y := by omega
        simp only [h2, h, if_false, if_true, Bool.false_eq_true, false_iff]
        intro hl
        cases hl with
        | cons hl2 => exact h2 h
        | rel hr => exact h2 hr

theorem sortStrings_eq_insertionSort (l : List Str) :
    sortStrings l = List.insertionSort (fun a b : Str => a ≤ b) l := by
  have hins : ∀ (x : Str) (ys : List Str),
      insertSorted x ys = List.orderedInsert (fun a b : Str => a ≤ b) x ys := by
    intro x ys
    induction ys with
    | nil => rfl
    | cons y t ih =>
      simp only [insertSorted, List.orderedInsert]
      by_cases h : strLess y x = true
      · have h2 : ¬ x ≤ y := not_le.2 ((strLess_iff_lt y x).1 h)
        rw [if_pos h, if_neg h2, ih]
      · have h2 : x ≤ y := not_lt.1 (fun hl => h ((strLess_iff_lt y x).2 hl))
        rw [if_neg h, if_pos h2]
  induction l with
  | nil => rfl
  | cons x t ih => simp only [sortStrings, List.insertionSort, hins, ih]

theorem sortStrings_spec (l : List Str) (hnd : l.Nodup) :
    (sortStrings l).Pairwise (fun a b => strLess a b = true) ∧
    (sortStrings l).Nodup ∧ ∀ w, w ∈ sortStrings l ↔ w ∈ l := by
  rw [sortStrings_eq_insertionSort]
  have hp := List.perm_insertionSort (fun a b : Str => a ≤ b) l
  have hs := List.sorted_insertionSort (fun a b : Str => a ≤ b) l
  have hnd2 : (List.insertionSort (fun a b : Str => a ≤ b) l).Nodup := hp.nodup_iff.2 hnd
  refine ⟨?_, hnd2, fun w => hp.mem_iff⟩
  have hlt := hs.lt_of_le hnd2
  exact List.Pairwise.imp (fun h => (strLess_iff_lt _ _).2 h) hlt


/-! ### `Purify` on text of word bytes and spaces -/

theorem isWordByte_bounds (c : Nat) (h : isWordByte c = true) :
    (48 ≤ c ∧ c ≤ 57) ∨ (97 ≤ c ∧ c ≤ 122) := by
  simpa [isWordByte] using h

theorem isAlnum_bounds (c : Nat) (h : isAlnum c = true) :
    (48 ≤ c ∧ c ≤ 57) ∨ (65 ≤ c ∧ c ≤ 90) ∨ (97 ≤ c ∧ c ≤ 122) := by
  simpa [isAlnum, or_assoc] using h

theorem isWordByte_lowerByte (c : Nat) (h : isAlnum c = true) :
    isWordByte (lowerByte c) = true := by
  have hb := isAlnum_bounds c h
  simp only [isWordByte, lowerByte, Bool.or_eq_true, Bool.and_eq_true, decide_eq_true_eq]
  split_ifs <;> omega

theorem asciiSpace_of_wordByte (c : Nat) (h : isWordByte c = true) :
    asciiSpace c = false := by
  have hb := isWordByte_bounds c h
  simp only [asciiSpace, Bool.or_eq_false_iff, beq_eq_false_iff_ne, ne_eq]
  omega

theorem Shrink_trans (c : Nat) (s r : Str) (h : Shrink c s r) :
    ∀ t : Str, Shrink c r t → Shrink c s t := by
  induction h with
  | nil => intro t ht; exact ht
  | keep x _ ih =>
    intro t ht
    cases ht with
    | keep _ h2 => exact Shrink.keep x (ih _ h2)
    | drop h2 => exact Shrink.drop (ih _ h2)
  | drop _ ih =>
    intro t ht
    cases ht with
    | keep _ h2 => exact Shrink.drop (ih _ (Shrink.keep c h2))
    | drop h2 => exact Shrink.drop (ih _ (Shrink.drop h2))

theorem Shrink_collapseFixed (s : Str) : Shrink 45 s (collapseFixed s) := by
  simp only [collapseFixed]
  exact Shrink_trans 45 _ _ (Shrink_Replace_dashes 4 s) _
    (Shrink_trans 45 _ _ (Shrink_Replace_dashes 3 _) _
      (Shrink_trans 45 _ _ (Shrink_Replace_dashes 2 _) _ (Shrink_Replace_dashes 1 _)))

theorem Shrink_mem (c : Nat) (s r : Str) (h : Shrink c s r) : ∀ x ∈ r, x ∈ s := by
  induction h with
  | nil => intro x hx; exact hx
  | keep y _ ih =>
    intro x hx
    rcases List.mem_cons.1 hx with e | e
    · exact e ▸ List.mem_cons_self _ _
    · exact List.mem_cons_of_mem _ (ih x e)
  | drop _ ih =>
    intro x hx
    exact List.mem_cons_of_mem _ (ih x hx)

theorem purifyPrepare_wordSpace (L : Lib) (s : Str)
    (h : ∀ c ∈ s, isWordByte c = true ∨ c = 32) :
    purifyPrepare L s = s.map (fun x => if x = 32 then 45 else x) := by
  have hascii : s.all (fun c => decide (c < 128)) = true := by
    rw [List.all_eq_true]
    intro c hc
    rcases h c hc with e | e
    · have := isWordByte_bounds c e
      simp only [decide_eq_true_eq]
      omega
    · subst e
      decide
  have hlow : s.map lowerByte = s := by
    conv_rhs => rw [← List.map_id s]
    apply List.map_congr_left
    intro c hc
    rcases h c hc with e | e
    · have := isWordByte_bounds c e
      simp only [lowerByte, id]
      split_ifs <;> omega
    · subst e
      rfl
  have hnot : ∀ k : Nat, k = 38 ∨ k = 35 →
      k ∉ s.map (fun x => if x = 32 then 45 else x) := by
    intro k hk hmem
    obtain ⟨c, hc, e⟩ := List.mem_map.1 hmem
    rcases h c hc with e2 | e2
    · have := isWordByte_bounds c e2
      split_ifs at e <;> omega
    · subst e2
      simp only [if_true] at e
      omega
  have e1 : bytes "&quot;" = 38 :: bytes "quot;" := by decide
  have e2 : bytes "&#039;" = 38 :: bytes "#039;" := by decide
  have e3 : bytes "#039;" = 35 :: bytes "039;" := by decide
  have e4 : bytes "#39;" = 35 :: bytes "39;" := by decide
  have e5 : bytes "&amp;" = 38 :: bytes "amp;" := by decide
  simp only [purifyPrepare, ToLower_ascii L s hascii, hlow, bytes_space, bytes_dash,
    Replace_single_map]
  rw [e1, Replace_of_head_not_mem 38 _ _ _ (hnot 38 (Or.inl rfl)),
    e2, Replace_of_head_not_mem 38 _ _ _ (hnot 38 (Or.inl rfl)),
    e3, Replace_of_head_not_mem 35 _ _ _ (hnot 35 (Or.inr rfl)),
    e4, Replace_of_head_not_mem 35 _ _ _ (hnot 35 (Or.inr rfl)),
    e5, Replace_of_head_not_mem 38 _ _ _ (hnot 38 (Or.inl rfl))]

theorem Purify_wordSpace (L : Lib) (o : Options) (s sep : Str)
    (h : ∀ c ∈ s, isWordByte c = true ∨ c = 32) (hrep : o.PurifyReplacer = bytes " ") :
    ∃ p : Str, Purify L { options := some o } s sep = some p ∧ Shrink 32 s p := by
  refine ⟨_, Purify_eq L _ s sep, ?_⟩
  simp only [purifyPrepare_wordSpace L s h, hrep, bytes_space, bytes_dash,
    Replace_single_map]
  have hs := Shrink_map (fun x => if x = 45 then 32 else x) 45 _ _
    (Shrink_collapseFixed (s.map (fun x => if x = 32 then 45 else x)))
  have hback : (s.map (fun x => if x = 32 then 45 else x)).map
      (fun x => if x = 45 then 32 else x) = s := by
    rw [List.map_map]
    conv_rhs => rw [← List.map_id s]
    apply List.map_congr_left
    intro c hc
    rcases h c hc with e | e
    · have := isWordByte_bounds c e
      simp only [Function.comp, id]
      split_ifs <;> omega
    · subst e
      rfl
  rw [hback] at hs
  exact hs


theorem fieldsAux_append_space (b : Str) :
    ∀ (a cur : Str), fieldsAux cur (a ++ 32 :: b) = fieldsAux cur a ++ fieldsAux [] b := by
  have h32 : asciiSpace 32 = true := by decide
  intro a
  induction a with
  | nil =>
    intro cur
    simp only [List.nil_append, fieldsAux, h32, if_true]
    by_cases hc : cur = [] <;> simp [hc]
  | cons c t ih =>
    intro cur
    simp only [List.cons_append, fieldsAux]
    by_cases hs : asciiSpace c = true
    · simp only [hs, if_true, List.append_eq]
      by_cases hc : cur = [] <;> simp [hc, ih]
    · simp only [hs, Bool.false_eq_true, if_false, List.append_eq, ih]

theorem fieldsAux_flatMap (g : Str → Str) :
    ∀ fs : List Str, fieldsAux [] (fs.flatMap (fun f => 32 :: g f)) =
      fs.flatMap (fun f => fieldsAux [] (g f)) := by
  have h32 : asciiSpace 32 = true := by decide
  intro fs
  induction fs with
  | nil => rfl
  | cons f t ih =>
    have hstep : ∀ z : Str, fieldsAux [] (32 :: z) = fieldsAux [] z := by
      intro z
      simp only [fieldsAux, h32, if_true]
    rw [List.flatMap_cons, List.flatMap_cons, List.cons_append, hstep, ← ih]
    cases t with
    | nil => simp [fieldsAux]
    | cons f2 t2 =>
      rw [List.flatMap_cons, List.cons_append, fieldsAux_append_space, hstep]

theorem fieldsAux_eq_splitOn :
    ∀ (s cur : Str), (∀ c ∈ s, isWordByte c = true ∨ c = 32) →
      fieldsAux cur s = ((s.splitOn 32).modifyHead (fun w => cur.reverse ++ w)).filter
        (fun w => decide (w ≠ [])) := by
  intro s
  induction s with
  | nil =>
    intro cur _
    by_cases hc : cur = [] <;> simp [fieldsAux, hc, List.modifyHead]
  | cons c t ih =>
    intro cur h
    have ht : ∀ x ∈ t, isWordByte x = true ∨ x = 32 :=
      fun x hx => h x (List.mem_cons_of_mem c hx)
    rcases h c (List.mem_cons_self c t) with e | e
    · have hs : asciiSpace c = false := asciiSpace_of_wordByte c e
      have hne : c ≠ 32 := by
        have := isWordByte_bounds c e
        omega
      have hbeq : (c == 32) = false := by simpa using hne
      simp only [fieldsAux, hs, Bool.false_eq_true, if_false, ih (c :: cur) ht,
        List.splitOn, List.splitOnP_cons, hbeq, List.modifyHead_modifyHead]
      congr 2
      funext w
      simp
    · subst e
      have h32 : asciiSpace 32 = true := by decide
      have hbeq : ((32 : Nat) == 32) = true := by decide
      have e0 := ih [] ht
      simp only [List.reverse_nil, List.nil_append] at e0
      have hid : List.modifyHead (fun w : Str => w) (t.splitOn 32) = t.splitOn 32 := by
        cases t.splitOn 32 <;> rfl
      rw [hid] at e0
      simp only [fieldsAux, h32, if_true, List.splitOn, List.splitOnP_cons, hbeq,
        List.modifyHead, List.append_nil]
      simp only [List.splitOn] at e0
      by_cases hc : cur = []
      · simp [hc, e0]
      · simp [hc, e0]

theorem fieldsAux_eq_wordsOf (s : Str) (h : ∀ c ∈ s, isWordByte c = true ∨ c = 32) :
    fieldsAux [] s = wordsOf s := by
  rw [fieldsAux_eq_splitOn s [] h, wordsOf]
  congr 1
  cases s.splitOn 32 <;> rfl

theorem fieldsAux_mem :
    ∀ (s cur : Str), ∀ w ∈ fieldsAux cur s,
      w ≠ [] ∧ ∀ c ∈ w, c ∈ cur ∨ (c ∈ s ∧ asciiSpace c = false) := by
  intro s
  induction s with
  | nil =>
    intro cur w hw
    by_cases hc : cur = []
    · simp [fieldsAux, hc] at hw
    · simp only [fieldsAux, hc, if_false, List.mem_singleton] at hw
      subst hw
      refine ⟨by simpa using hc, fun c hcm => Or.inl (List.mem_reverse.1 hcm)⟩
  | cons x t ih =>
    intro cur w hw
    simp only [fieldsAux] at hw
    by_cases hs : asciiSpace x = true
    · simp only [hs, if_true] at hw
      have rest : w ∈ fieldsAux [] t →
          w ≠ [] ∧ ∀ c ∈ w, c ∈ cur ∨ (c ∈ x :: t ∧ asciiSpace c = false) := by
        intro hw2
        obtain ⟨h1, h2⟩ := ih [] w hw2
        refine ⟨h1, fun c hc => ?_⟩
        rcases h2 c hc with e | e
        · exact absurd e (List.not_mem_nil c)
        · exact Or.inr ⟨List.mem_cons_of_mem x e.1, e.2⟩
      by_cases hc : cur = []
      · simp only [hc, if_true] at hw
        exact rest hw
      · simp only [hc, if_false, List.mem_cons] at hw
        rcases hw with e | e
        · subst e
          refine ⟨by simpa using hc, fun c hcm => Or.inl (List.mem_reverse.1 hcm)⟩
        · exact rest e
    · simp only [hs, Bool.false_eq_true, if_false] at hw
      obtain ⟨h1, h2⟩ := ih (x :: cur) w hw
      refine ⟨h1, fun c hc => ?_⟩
      rcases h2 c hc with e | e
      · rcases List.mem_cons.1 e with e2 | e2
        · subst e2
          exact Or.inr ⟨List.mem_cons_self _ _, by simpa using hs⟩
        · exact Or.inl e2
      · exact Or.inr ⟨List.mem_cons_of_mem x e.1, e.2⟩


/-! ### Stop-word removal on the padded token text -/

theorem Join_append_sep (sep : Str) :
    ∀ T : List Str, T ≠ [] → Join T sep ++ sep = T.flatMap (fun t => t ++ sep) := by
  intro T
  induction T with
  | nil => intro h; exact absurd rfl h
  | cons a rest ih =>
    intro _
    cases rest with
    | nil => simp [Join]
    | cons b rest2 =>
      have e := ih (List.cons_ne_nil b rest2)
      rw [Join, List.append_assoc, List.append_assoc, e]
      simp [List.flatMap_cons]

theorem padded_eq_spaced (T : List Str) (h : T ≠ []) :
    bytes " " ++ Join T (bytes " ") ++ bytes " " = spaced T := by
  rw [List.append_assoc, Join_append_sep (bytes " ") T h, bytes_space]
  rfl

theorem isPrefixOf_token :
    ∀ (w t rest : Str), 32 ∉ w → 32 ∉ t →
      (w ++ [32]).isPrefixOf (t ++ 32 :: rest) = decide (w = t) := by
  intro w
  induction w with
  | nil =>
    intro t rest _ ht
    cases t with
    | nil => simp [List.isPrefixOf]
    | cons c t2 =>
      have hc : (32 : Nat) ≠ c := fun e => ht (e ▸ List.mem_cons_self _ _)
      simp [List.isPrefixOf, hc]
  | cons x w2 ih =>
    intro t rest hw ht
    have hx : x ≠ 32 := fun e => hw (e ▸ List.mem_cons_self _ _)
    have hw2 : 32 ∉ w2 := fun e => hw (List.mem_cons_of_mem x e)
    cases t with
    | nil => simp [List.isPrefixOf, hx]
    | cons c t2 =>
      have ht2 : 32 ∉ t2 := fun e => ht (List.mem_cons_of_mem c e)
      simp only [List.cons_append, List.isPrefixOf, List.append_eq, ih t2 rest hw2 ht2]
      by_cases hxc : x = c
      · subst hxc
        simp
      · simp [hxc]

theorem replaceAux_through_token (os new : Str) :
    ∀ (t rest : Str), 32 ∉ t →
      replaceAux (32 :: os) new 0 (t ++ rest) = t ++ replaceAux (32 :: os) new 0 rest := by
  intro t
  induction t with
  | nil => intro rest _; rfl
  | cons c t2 ih =>
    intro rest ht
    have hc : (32 : Nat) ≠ c := fun e => ht (e ▸ List.mem_cons_self _ _)
    have ht2 : 32 ∉ t2 := fun e => ht (List.mem_cons_of_mem c e)
    simp [replaceAux, List.isPrefixOf, hc, ih rest ht2]

theorem spaced_cons (t : Str) (T : List Str) :
    spaced (t :: T) = 32 :: (t ++ spaced T) := by
  simp [spaced, List.flatMap_cons]

theorem stop_no_match (w : Str) (hw : 32 ∉ w) :
    ∀ T : List Str, (∀ t ∈ T, t ≠ [] ∧ 32 ∉ t) → w ∉ T →
      replaceAux (32 :: (w ++ [32])) [32] 0 (spaced T) = spaced T := by
  intro T
  induction T with
  | nil =>
    intro _ _
    simp [spaced, replaceAux, List.isPrefixOf]
  | cons t T2 ih =>
    intro hT hmem
    have ht := (hT t (List.mem_cons_self t T2)).2
    have hT2 : ∀ t2 ∈ T2, t2 ≠ [] ∧ 32 ∉ t2 := fun t2 h => hT t2 (List.mem_cons_of_mem t h)
    have hne : w ≠ t := fun e => hmem (e ▸ List.mem_cons_self _ _)
    have hm2 : w ∉ T2 := fun e => hmem (List.mem_cons_of_mem t e)
    have hp : (w ++ [32]).isPrefixOf (t ++ 32 :: T2.flatMap (fun t => t ++ [32])) = false := by
      rw [isPrefixOf_token w t _ hw ht]
      simpa using hne
    have hp2 : (32 :: (w ++ [32])).isPrefixOf (32 :: (t ++ spaced T2)) = false := by
      simpa [List.isPrefixOf, spaced] using hp
    rw [spaced_cons, replaceAux, if_neg (by simp [hp2]), replaceAux_through_token _ _ t _ ht,
      ih hT2 hm2]

theorem stop_remove (w : Str) (hw : 32 ∉ w) :
    ∀ T : List Str, (∀ t ∈ T, t ≠ [] ∧ 32 ∉ t) → T.Nodup →
      replaceAux (32 :: (w ++ [32])) [32] 0 (spaced T) =
        spaced (T.filter (fun t => decide (t ≠ w))) := by
  intro T
  induction T with
  | nil =>
    intro _ _
    simp [spaced, replaceAux, List.isPrefixOf]
  | cons t T2 ih =>
    intro hT hnd
    have ht := (hT t (List.mem_cons_self t T2)).2
    have hT2 : ∀ t2 ∈ T2, t2 ≠ [] ∧ 32 ∉ t2 := fun t2 h => hT t2 (List.mem_cons_of_mem t h)
    have hnd2 : T2.Nodup := (List.nodup_cons.1 hnd).2
    have htT2 : t ∉ T2 := (List.nodup_cons.1 hnd).1
    have hpe : (32 :: (w ++ [32])).isPrefixOf (32 :: (t ++ spaced T2)) = decide (w = t) := by
      have := isPrefixOf_token w t (T2.flatMap (fun t => t ++ [32])) hw ht
      simpa [List.isPrefixOf, spaced] using this
    by_cases hwt : w = t
    · subst hwt
      have hfil : (w :: T2).filter (fun t => decide (t ≠ w)) = T2 := by
        rw [List.filter_cons_of_neg (by simp)]
        apply List.filter_eq_self.2
        intro a ha
        have : a ≠ w := fun e => htT2 (e ▸ ha)
        simpa using this
      have hskip : (w ++ spaced T2).drop ((32 :: (w ++ [32])).length - 1) =
          T2.flatMap (fun t => t ++ [32]) := by
        simp only [List.length_cons, List.length_append, List.length_nil, Nat.add_sub_cancel,
          spaced]
        rw [show w ++ 32 :: T2.flatMap (fun t => t ++ [32]) =
          (w ++ [32]) ++ T2.flatMap (fun t => t ++ [32]) by simp]
        exact List.drop_left' (by simp)
      have hrest : replaceAux (32 :: (w ++ [32])) [32] 0 (T2.flatMap (fun t => t ++ [32])) =
          T2.flatMap (fun t => t ++ [32]) := by
        cases T2 with
        | nil => rfl
        | cons t2 T3 =>
          have ht2 := (hT2 t2 (List.mem_cons_self t2 T3)).2
          have hT3 : ∀ t3 ∈ T3, t3 ≠ [] ∧ 32 ∉ t3 :=
            fun t3 h => hT2 t3 (List.mem_cons_of_mem t2 h)
          have hw3 : w ∉ T3 := fun e => htT2 (List.mem_cons_of_mem t2 e)
          have e := stop_no_match w hw T3 hT3 hw3
          rw [List.flatMap_cons, List.append_assoc, replaceAux_through_token _ _ t2 _ ht2]
          simp only [spaced, List.singleton_append] at e ⊢
          rw [e]
      rw [spaced_cons, replaceAux, if_pos (by simp [hpe]), replaceAux_skip, hskip, hrest, hfil]
      rfl
    · have hfil : (t :: T2).filter (fun t => decide (t ≠ w)) =
          t :: T2.filter (fun t => decide (t ≠ w)) := by
        have : t ≠ w := fun e => hwt e.symm
        rw [List.filter_cons_of_pos (by simpa using this)]
      rw [spaced_cons, replaceAux, if_neg (by simp [hpe, hwt]),
        replaceAux_through_token _ _ t _ ht, ih hT2 hnd2, hfil, spaced_cons]


theorem replaceAux_all_space (old : Str) :
    ∀ (s : Str) (k : Nat), (∀ c ∈ s, c = 32) → ∀ c ∈ replaceAux old [32] k s, c = 32 := by
  intro s
  induction s with
  | nil => intro k _ c hc; cases k <;> simp [replaceAux] at hc
  | cons x t ih =>
    intro k hs c hc
    have ht : ∀ c ∈ t, c = 32 := fun c h => hs c (List.mem_cons_of_mem x h)
    cases k with
    | succ j =>
      simp only [replaceAux] at hc
      exact ih j ht c hc
    | zero =>
      simp only [replaceAux] at hc
      split_ifs at hc
      · rcases List.mem_append.1 hc with h | h
        · simpa using h
        · exact ih _ ht c h
      · rcases List.mem_cons.1 hc with h | h
        · rw [h]; exact hs x (List.mem_cons_self x t)
        · exact ih 0 ht c h

theorem stops_fold_all_space (stops : List Str) :
    ∀ s : Str, (∀ c ∈ s, c = 32) →
      ∀ c ∈ stops.foldl
        (fun acc w => Replace acc (bytes " " ++ w ++ bytes " ") (bytes " ")) s, c = 32 := by
  induction stops with
  | nil => intro s hs c hc; exact hs c hc
  | cons w ws ih =>
    intro s hs
    rw [List.foldl_cons]
    apply ih
    intro c hc
    simp only [Replace, bytes_space] at hc
    split_ifs at hc
    · exact hs c hc
    · exact replaceAux_all_space _ s 0 hs c hc

theorem stops_fold_spaced (stops : List Str) (hs : ∀ w ∈ stops, 32 ∉ w) :
    ∀ T : List Str, (∀ t ∈ T, t ≠ [] ∧ 32 ∉ t) → T.Nodup →
      stops.foldl (fun acc w => Replace acc (bytes " " ++ w ++ bytes " ") (bytes " "))
        (spaced T) = spaced (T.filter (fun t => decide (t ∉ stops))) := by
  induction stops with
  | nil =>
    intro T _ _
    simp
  | cons w ws ih =>
    intro T hT hnd
    have hw : 32 ∉ w := hs w (List.mem_cons_self w ws)
    have hws : ∀ v ∈ ws, 32 ∉ v := fun v h => hs v (List.mem_cons_of_mem w h)
    have hstep : Replace (spaced T) (bytes " " ++ w ++ bytes " ") (bytes " ") =
        spaced (T.filter (fun t => decide (t ≠ w))) := by
      rw [bytes_space]
      simp only [Replace, List.singleton_append, if_neg (List.cons_ne_nil _ _)]
      exact stop_remove w hw T hT hnd
    rw [List.foldl_cons, hstep,
      ih hws _ (fun t h => hT t (List.mem_filter.1 h).1) (hnd.filter _), List.filter_filter]
    congr 1
    apply List.filter_congr
    intro t _
    simp only [List.mem_cons, not_or, decide_not, Bool.decide_and]
    rw [Bool.and_comm]

/-! ### Trimming and joining -/

theorem dropWhile_space_of_head (s : Str) (h : s.head? ≠ some 32) :
    s.dropWhile (fun c => decide (c ∈ [32])) = s := by
  cases s with
  | nil => rfl
  | cons x t =>
    have hx : x ≠ 32 := fun e => h (by rw [e]; rfl)
    simp [List.dropWhile, hx]

theorem Trim_tidy (s : Str) (h1 : s.head? ≠ some 32) (h2 : s.getLast? ≠ some 32) :
    Trim s [32] = s := by
  have h3 : s.reverse.head? ≠ some 32 := by rwa [List.head?_reverse]
  rw [Trim, dropWhile_space_of_head s h1, dropWhile_space_of_head _ h3, List.reverse_reverse]

theorem Trim_padded (s : Str) (h0 : s ≠ []) (h1 : s.head? ≠ some 32)
    (h2 : s.getLast? ≠ some 32) : Trim (32 :: (s ++ [32])) [32] = s := by
  have h3 : s.reverse.head? ≠ some 32 := by rwa [List.head?_reverse]
  have h4 : (s ++ [32]).head? ≠ some 32 := by
    cases s with
    | nil => exact absurd rfl h0
    | cons x t => exact h1
  have e1 : (32 :: (s ++ [32])).dropWhile (fun c => decide (c ∈ [32])) = s ++ [32] := by
    rw [List.dropWhile_cons_of_pos (by simp), dropWhile_space_of_head _ h4]
  have e2 : (s ++ [32]).reverse.dropWhile (fun c => decide (c ∈ [32])) = s.reverse := by
    rw [List.reverse_append, List.reverse_singleton, List.singleton_append,
      List.dropWhile_cons_of_pos (by simp), dropWhile_space_of_head _ h3]
  rw [Trim, e1, e2, List.reverse_reverse]

theorem Trim_all_space (s : Str) (h : ∀ c ∈ s, c = 32) : Trim s [32] = [] := by
  have e : s.dropWhile (fun c => decide (c ∈ [32])) = [] := by
    rw [List.dropWhile_eq_nil_iff]
    intro c hc
    simp [h c hc]
  rw [Trim, e]
  rfl

theorem Join_snoc (sep : Str) :
    ∀ (T : List Str) (t : Str), Join (T ++ [t]) sep = T.flatMap (fun x => x ++ sep) ++ t := by
  intro T
  induction T with
  | nil => intro t; simp [Join]
  | cons a T2 ih =>
    intro t
    cases T2 with
    | nil => simp [Join]
    | cons b T3 =>
      have e := ih t
      simp only [List.cons_append] at e ⊢
      rw [Join, e]
      simp [List.flatMap_cons]

theorem Join_head (T : List Str) (hT : ∀ t ∈ T, t ≠ [] ∧ 32 ∉ t) :
    (Join T [32]).head? ≠ some 32 := by
  cases T with
  | nil => simp [Join]
  | cons a T2 =>
    obtain ⟨ha, ha2⟩ := hT a (List.mem_cons_self a T2)
    cases a with
    | nil => exact absurd rfl ha
    | cons x a2 =>
      have hx : x ≠ 32 := fun e => ha2 (e ▸ List.mem_cons_self _ _)
      cases T2 with
      | nil => simpa [Join] using hx
      | cons b T3 => simpa [Join] using hx

theorem Join_last (T : List Str) (hT : ∀ t ∈ T, t ≠ [] ∧ 32 ∉ t) :
    (Join T [32]).getLast? ≠ some 32 := by
  rcases List.eq_nil_or_concat T with e | ⟨T2, t, e⟩
  · subst e
    simp [Join]
  · subst e
    rw [List.concat_eq_append] at hT ⊢
    obtain ⟨ht, ht2⟩ := hT t (by simp)
    rw [Join_snoc, List.getLast?_append_of_ne_nil _ ht]
    intro hl
    exact ht2 (List.mem_of_getLast?_eq_some hl)

theorem Join_ne_nil (T : List Str) (h0 : T ≠ []) (hT : ∀ t ∈ T, t ≠ [] ∧ 32 ∉ t) :
    Join T [32] ≠ [] := by
  cases T with
  | nil => exact absurd rfl h0
  | cons a T2 =>
    have ha := (hT a (List.mem_cons_self a T2)).1
    cases T2 with
    | nil => simpa [Join] using ha
    | cons b T3 => simp [Join, ha]

theorem Join_mem : ∀ (T : List Str) (c : Nat), c ∈ Join T [32] → c = 32 ∨ ∃ t ∈ T, c ∈ t := by
  intro T
  induction T with
  | nil => intro c hc; simp [Join] at hc
  | cons a T2 ih =>
    intro c hc
    cases T2 with
    | nil =>
      simp only [Join] at hc
      exact Or.inr ⟨a, List.mem_cons_self _ _, hc⟩
    | cons b T3 =>
      simp only [Join, List.mem_append, List.mem_singleton] at hc
      rcases hc with (h | h) | h
      · exact Or.inr ⟨a, List.mem_cons_self _ _, h⟩
      · exact Or.inl h
      · rcases ih c h with h2 | ⟨t, ht, hct⟩
        · exact Or.inl h2
        · exact Or.inr ⟨t, List.mem_cons_of_mem _ ht, hct⟩

theorem chain_token_append (t rest : Str) (ht : 32 ∉ t)
    (hr : List.Chain' (fun a b : Nat => ¬(a = 32 ∧ b = 32)) rest) :
    List.Chain' (fun a b : Nat => ¬(a = 32 ∧ b = 32)) (t ++ rest) := by
  induction t with
  | nil => exact hr
  | cons x t2 ih =>
    have hx : x ≠ 32 := fun e => ht (e ▸ List.mem_cons_self _ _)
    have ht2 : 32 ∉ t2 := fun e => ht (List.mem_cons_of_mem x e)
    rw [List.cons_append, List.chain'_cons']
    exact ⟨fun y _ h => hx h.1, ih ht2⟩

theorem Join_chain : ∀ T : List Str, (∀ t ∈ T, t ≠ [] ∧ 32 ∉ t) →
    List.Chain' (fun a b : Nat => ¬(a = 32 ∧ b = 32)) (Join T [32]) := by
  intro T
  induction T with
  | nil => intro _; simp [Join]
  | cons a T2 ih =>
    intro hT
    have ha := (hT a (List.mem_cons_self a T2)).2
    have hT2 : ∀ t ∈ T2, t ≠ [] ∧ 32 ∉ t := fun t h => hT t (List.mem_cons_of_mem a h)
    cases T2 with
    | nil =>
      simp only [Join]
      have := chain_token_append a [] ha List.chain'_nil
      simpa using this
    | cons b T3 =>
      rw [Join, List.append_assoc]
      apply chain_token_append a _ ha
      rw [List.singleton_append, List.chain'_cons']
      refine ⟨fun y hy h => ?_, ih hT2⟩
      have := Join_head (b :: T3) hT2
      rw [h.2] at hy
      exact this (Option.mem_def.1 hy)

theorem Shrink_eq_of_chain (c : Nat) (s r : Str) (h : Shrink c s r) :
    List.Chain' (fun a b : Nat => ¬(a = c ∧ b = c)) s → r = s := by
  induction h with
  | nil => intro _; rfl
  | keep x _ ih =>
    intro hc
    rw [ih (List.Chain'.tail hc)]
  | drop _ ih =>
    intro hc
    have e := ih (List.Chain'.tail hc)
    rw [← e] at hc
    rw [List.chain'_cons] at hc
    exact absurd ⟨rfl, rfl⟩ hc.1

theorem extras_single :
    ∀ er ∈ extraReplacements, ∃ c : Nat, er = [c] ∧ isWordByte c = false ∧ c ≠ 32 := by
  have h : extraReplacements.all (fun er =>
      match er with
      | [c] => !isWordByte c && decide (c ≠ 32)
      | _ => false) = true := by decide
  intro er her
  have h2 := List.all_eq_true.1 h er her
  match er, h2 with
  | [c], h2 =>
    simp only [Bool.and_eq_true, Bool.not_eq_true', decide_eq_true_eq] at h2
    exact ⟨c, rfl, h2.1, h2.2⟩

theorem extras_fold_id (s : Str) (h : ∀ c ∈ s, isWordByte c = true ∨ c = 32) :
    ∀ ers : List Str, (∀ er ∈ ers, ∃ c : Nat, er = [c] ∧ isWordByte c = false ∧ c ≠ 32) →
      ers.foldl (fun acc er => Replace acc er (bytes " ")) s = s := by
  intro ers
  induction ers with
  | nil => intro _; rfl
  | cons er rest ih =>
    intro hers
    obtain ⟨c, e, hc1, hc2⟩ := hers er (List.mem_cons_self er rest)
    have hnot : c ∉ s := by
      intro hm
      rcases h c hm with h1 | h1
      · rw [h1] at hc1; exact Bool.noConfusion hc1
      · exact hc2 h1
    rw [List.foldl_cons, e, Replace_of_head_not_mem c [] _ s hnot]
    exact ih (fun er2 h2 => hers er2 (List.mem_cons_of_mem er h2))

/-! ### The pipeline of `TokenizeStrings` on clean input -/

theorem foldl_append_flatMap {α : Type} (g : α → Str) :
    ∀ (l : List α) (init : Str),
      l.foldl (fun acc x => acc ++ g x) init = init ++ l.flatMap g := by
  intro l
  induction l with
  | nil => intro init; simp
  | cons x t ih =>
    intro init
    rw [List.foldl_cons, ih, List.flatMap_cons, List.append_assoc]

theorem flatMap_congr_mem {α β : Type} (g h : α → List β) :
    ∀ l : List α, (∀ x ∈ l, g x = h x) → l.flatMap g = l.flatMap h := by
  intro l
  induction l with
  | nil => intro _; rfl
  | cons x t ih =>
    intro hl
    rw [List.flatMap_cons, List.flatMap_cons, hl x (List.mem_cons_self x t),
      ih (fun y hy => hl y (List.mem_cons_of_mem x hy))]

theorem sorted_unique (A B : List Str)
    (hA : A.Pairwise (fun a b => strLess a b = true))
    (hB : B.Pairwise (fun a b => strLess a b = true))
    (hmem : ∀ w, w ∈ A ↔ w ∈ B) : A = B := by
  have hA2 : A.Pairwise (fun a b : Str => a < b) :=
    List.Pairwise.imp (fun h => (strLess_iff_lt _ _).1 h) hA
  have hB2 : B.Pairwise (fun a b : Str => a < b) :=
    List.Pairwise.imp (fun h => (strLess_iff_lt _ _).1 h) hB
  have hAn : A.Nodup := List.Pairwise.imp (fun h => ne_of_lt h) hA2
  have hBn : B.Nodup := List.Pairwise.imp (fun h => ne_of_lt h) hB2
  have hp : A.Perm B := (List.perm_ext_iff_of_nodup hAn hBn).2 hmem
  have hA3 : A.Sorted (fun a b : Str => a ≤ b) := List.Pairwise.imp (fun h => le_of_lt h) hA2
  have hB3 : B.Sorted (fun a b : Str => a ≤ b) := List.Pairwise.imp (fun h => le_of_lt h) hB2
  exact List.eq_of_perm_of_sorted hp hA3 hB3

theorem stops_trim (stops : List Str) (hs : ∀ w ∈ stops, 32 ∉ w) (T : List Str)
    (hT : ∀ t ∈ T, t ≠ [] ∧ 32 ∉ t) (hnd : T.Nodup) :
    Trim (stops.foldl (fun acc w => Replace acc (bytes " " ++ w ++ bytes " ") (bytes " "))
      (bytes " " ++ Join T (bytes " ") ++ bytes " ")) (bytes " ") =
      Join (T.filter (fun t => decide (t ∉ stops))) (bytes " ") := by
  by_cases h0 : T = []
  · subst h0
    have hall : ∀ c ∈ bytes " " ++ Join [] (bytes " ") ++ bytes " ", c = 32 := by decide
    have e := Trim_all_space _ (stops_fold_all_space stops _ hall)
    rw [bytes_space] at e ⊢
    rw [e]
    rfl
  · rw [padded_eq_spaced T h0, stops_fold_spaced stops hs T hT hnd]
    have hT1 : ∀ t ∈ T.filter (fun t => decide (t ∉ stops)), t ≠ [] ∧ 32 ∉ t :=
      fun t h => hT t (List.mem_filter.1 h).1
    by_cases h1 : T.filter (fun t => decide (t ∉ stops)) = []
    · rw [h1, bytes_space]
      decide
    · rw [← padded_eq_spaced _ h1, bytes_space, List.append_assoc, List.singleton_append]
      exact Trim_padded _ (Join_ne_nil _ h1 hT1) (Join_head _ hT1) (Join_last _ hT1)

theorem clean_tail (L : Lib) (o : Options) (sep : Str) (T : List Str)
    (hrep : o.PurifyReplacer = bytes " ")
    (hT : ∀ t ∈ T, t ≠ [] ∧ ∀ c ∈ t, isWordByte c = true) :
    Purify L { options := some o }
      (extraReplacements.foldl (fun acc er => Replace acc er (bytes " "))
        (Join T (bytes " "))) sep = some (Join T (bytes " ")) ∧
    Trim (Join T (bytes " ")) (bytes " ") = Join T (bytes " ") := by
  have hT2 : ∀ t ∈ T, t ≠ [] ∧ 32 ∉ t := by
    intro t ht
    refine ⟨(hT t ht).1, fun h32 => ?_⟩
    have := (hT t ht).2 32 h32
    exact absurd this (by decide)
  have hbytes : ∀ c ∈ Join T [32], isWordByte c = true ∨ c = 32 := by
    intro c hc
    rcases Join_mem T c hc with h | ⟨t, ht, hct⟩
    · exact Or.inr h
    · exact Or.inl ((hT t ht).2 c hct)
  rw [bytes_space]
  rw [bytes_space] at hrep
  refine ⟨?_, Trim_tidy _ (Join_head T hT2) (Join_last T hT2)⟩
  have e := extras_fold_id (Join T [32]) hbytes extraReplacements extras_single
  rw [bytes_space] at e
  rw [e]
  obtain ⟨p, hp, hsh⟩ := Purify_wordSpace L o (Join T [32]) sep hbytes
    (by rw [bytes_space]; exact hrep)
  rw [hp, Shrink_eq_of_chain 32 _ _ hsh (Join_chain T hT2)]

theorem clean_head (L : Lib) (o : Options) (sep : Str) (fields : List Str)
    (hrep : o.PurifyReplacer = bytes " ")
    (hf : ∀ f ∈ fields, ∀ c ∈ f, isAlnum c = true ∨ c = 32)
    (hstrip : ∀ f ∈ fields, L.StripTags f = f) :
    ∃ p : Str, Purify L { options := some o }
      (fields.foldl (fun acc ns => acc ++ (bytes " " ++ ToLower L (L.StripTags ns))) [])
      sep = some p ∧
      Fields L p = fields.flatMap (fun f => wordsOf (f.map lowerByte)) := by
  have hlowb : ∀ f ∈ fields, ∀ c ∈ f.map lowerByte, isWordByte c = true ∨ c = 32 := by
    intro f hfm c hc
    obtain ⟨d, hd, e⟩ := List.mem_map.1 hc
    rcases hf f hfm d hd with h | h
    · exact Or.inl (e ▸ isWordByte_lowerByte d h)
    · subst h
      exact Or.inr e.symm
  have hg : ∀ f ∈ fields, bytes " " ++ ToLower L (L.StripTags f) = 32 :: f.map lowerByte := by
    intro f hfm
    have hascii : f.all (fun c => decide (c < 128)) = true := by
      rw [List.all_eq_true]
      intro c hc
      rcases hf f hfm c hc with e | e
      · have := isAlnum_bounds c e
        simp only [decide_eq_true_eq]
        omega
      · subst e
        decide
    rw [hstrip f hfm, ToLower_ascii L f hascii, bytes_space]
    rfl
  have hX : fields.foldl (fun acc ns => acc ++ (bytes " " ++ ToLower L (L.StripTags ns))) [] =
      fields.flatMap (fun f => 32 :: f.map lowerByte) := by
    rw [foldl_append_flatMap (fun ns => bytes " " ++ ToLower L (L.StripTags ns)) fields [],
      List.nil_append]
    exact flatMap_congr_mem _ _ fields hg
  have hXb : ∀ c ∈ fields.flatMap (fun f => 32 :: f.map lowerByte),
      isWordByte c = true ∨ c = 32 := by
    intro c hc
    obtain ⟨f, hfm, hcf⟩ := List.mem_flatMap.1 hc
    rcases List.mem_cons.1 hcf with h | h
    · exact Or.inr h
    · exact hlowb f hfm c h
  rw [hX]
  obtain ⟨p, hp, hsh⟩ := Purify_wordSpace L o _ sep hXb hrep
  refine ⟨p, hp, ?_⟩
  have hpascii : p.all (fun c => decide (c < 128)) = true := by
    rw [List.all_eq_true]
    intro c hc
    rcases hXb c (Shrink_mem 32 _ _ hsh c hc) with e | e
    · have := isWordByte_bounds c e
      simp only [decide_eq_true_eq]
      omega
    · subst e
      decide
  rw [Fields_ascii L p hpascii, ← fieldsAux_Shrink _ _ hsh [],
    fieldsAux_flatMap (fun f => f.map lowerByte) fields]
  exact flatMap_congr_mem _ _ fields
    (fun f hfm => fieldsAux_eq_wordsOf (f.map lowerByte) (hlowb f hfm))

theorem words_are_tokens (fields : List Str)
    (hf : ∀ f ∈ fields, ∀ c ∈ f, isAlnum c = true ∨ c = 32) :
    ∀ t ∈ fields.flatMap (fun f => wordsOf (f.map lowerByte)),
      t ≠ [] ∧ ∀ c ∈ t, isWordByte c = true := by
  intro t ht
  obtain ⟨f, hfm, htf⟩ := List.mem_flatMap.1 ht
  have hlowb : ∀ c ∈ f.map lowerByte, isWordByte c = true ∨ c = 32 := by
    intro c hc
    obtain ⟨d, hd, e⟩ := List.mem_map.1 hc
    rcases hf f hfm d hd with h | h
    · exact Or.inl (e ▸ isWordByte_lowerByte d h)
    · subst h
      exact Or.inr e.symm
  rw [← fieldsAux_eq_wordsOf _ hlowb] at htf
  obtain ⟨h1, h2⟩ := fieldsAux_mem (f.map lowerByte) [] t htf
  refine ⟨h1, fun c hc => ?_⟩
  rcases h2 c hc with h | ⟨hm, hsp⟩
  · exact absurd h (List.not_mem_nil c)
  · rcases hlowb c hm with e | e
    · exact e
    · subst e
      exact absurd hsp (by decide)

theorem naiveTokens_spec (stops fields : List Str) :
    (naiveTokens stops fields).Pairwise (fun a b => strLess a b = true) ∧
    ∀ w, w ∈ naiveTokens stops fields ↔
      ((∃ f ∈ fields, w ∈ wordsOf (f.map lowerByte)) ∧ w ∉ stops) := by
  obtain ⟨h1, _, h3⟩ := sortStrings_spec
    (((fields.flatMap (fun f => wordsOf (f.map lowerByte))).filter
      (fun w => decide (w ∉ stops))).dedup) (List.nodup_dedup _)
  refine ⟨h1, fun w => ?_⟩
  rw [naiveTokens, h3 w, List.mem_dedup, List.mem_filter, List.mem_flatMap]
  simp

theorem TokenizeStrings_clean (L : Lib) (StopWords : StopTable) (o : Options)
    (fields : List Str)
    (hrep : o.PurifyReplacer = bytes " ")
    (hf : ∀ f ∈ fields, ∀ c ∈ f, isAlnum c = true ∨ c = 32)
    (hstrip : ∀ f ∈ fields, L.StripTags f = f)
    (hstop : ∀ w ∈ stopWordsOf StopWords o.LanguageISOCode, 32 ∉ w) :
    TokenizeStrings L StopWords { options := some o } fields =
      some (Join (naiveTokens (stopWordsOf StopWords o.LanguageISOCode) fields)
        (bytes " ")) := by
  obtain ⟨p, hp, hfields⟩ := clean_head L o (bytes " ") fields hrep hf hstrip
  have hD := words_are_tokens fields hf
  obtain ⟨hUn, hUm⟩ := uniqueStep_foldl_inv
    (fields.flatMap (fun f => wordsOf (f.map lowerByte))) [] [] (fun a => Iff.rfl)
    List.nodup_nil
  obtain ⟨hS1, hS2, hS3⟩ := sortStrings_spec
    (UniqueStrings (fields.flatMap (fun f => wordsOf (f.map lowerByte)))) hUn
  have hmemD : ∀ t, t ∈ sortStrings (UniqueStrings
      (fields.flatMap (fun f => wordsOf (f.map lowerByte)))) ↔
      t ∈ fields.flatMap (fun f => wordsOf (f.map lowerByte)) := by
    intro t
    rw [hS3 t, UniqueStrings, hUm t]
    simp
  have hT0 : ∀ t ∈ sortStrings (UniqueStrings
      (fields.flatMap (fun f => wordsOf (f.map lowerByte)))),
      t ≠ [] ∧ 32 ∉ t := by
    intro t ht
    have := hD t ((hmemD t).1 ht)
    exact ⟨this.1, fun h32 => absurd (this.2 32 h32) (by decide)⟩
  have htrim := stops_trim (stopWordsOf StopWords o.LanguageISOCode) hstop _ hT0 hS2
  have hT1 : ∀ t ∈ (sortStrings (UniqueStrings
      (fields.flatMap (fun f => wordsOf (f.map lowerByte))))).filter
      (fun t => decide (t ∉ stopWordsOf StopWords o.LanguageISOCode)),
      t ≠ [] ∧ ∀ c ∈ t, isWordByte c = true :=
    fun t ht => hD t ((hmemD t).1 (List.mem_filter.1 ht).1)
  obtain ⟨htail1, htail2⟩ := clean_tail L o (bytes " ") _ hrep hT1
  obtain ⟨hN1, hN2⟩ := naiveTokens_spec (stopWordsOf StopWords o.LanguageISOCode) fields
  have heq : (sortStrings (UniqueStrings
      (fields.flatMap (fun f => wordsOf (f.map lowerByte))))).filter
      (fun t => decide (t ∉ stopWordsOf StopWords o.LanguageISOCode)) =
      naiveTokens (stopWordsOf StopWords o.LanguageISOCode) fields := by
    apply sorted_unique _ _ (List.Pairwise.filter _ hS1) hN1
    intro w
    rw [hN2 w, List.mem_filter, hmemD w, List.mem_flatMap]
    simp
  simp only [TokenizeStrings, Option.bind_eq_bind, Option.some_bind, hp, hfields, htrim,
    htail1, htail2]
  rw [heq]

/-! ### The general collapse compared with the fixed one -/

theorem collapseRuns_head : ∀ s : Str, (collapseRuns s).head? = s.head? := by
  intro s
  induction s with
  | nil => rfl
  | cons c cs ih =>
    by_cases h : c = 45 ∧ cs.head? = some 45
    · rw [collapseRuns, if_pos h, ih, h.2, h.1]
      rfl
    · rw [collapseRuns, if_neg h]
      rfl

theorem Shrink_collapseRuns : ∀ s : Str, Shrink 45 s (collapseRuns s) := by
  intro s
  induction s with
  | nil => exact Shrink.nil
  | cons c cs ih =>
    by_cases h : c = 45 ∧ cs.head? = some 45
    · rw [collapseRuns, if_pos h, h.1]
      have hh := collapseRuns_head cs
      rw [h.2] at hh
      cases hr : collapseRuns cs with
      | nil => rw [hr] at hh; exact Option.noConfusion hh
      | cons x r =>
        rw [hr] at hh ih
        have hx : x = 45 := Option.some.inj hh
        subst hx
        exact Shrink.drop ih
    · rw [collapseRuns, if_neg h]
      exact Shrink.keep c ih

theorem Shrink_head (c : Nat) (s r : Str) (h : Shrink c s r) : r.head? = s.head? := by
  cases h <;> rfl

theorem collapseRuns_of_Shrink (s r : Str) (h : Shrink 45 s r) :
    collapseRuns s = collapseRuns r := by
  induction h with
  | nil => rfl
  | keep x hsr ih =>
    simp only [collapseRuns, Shrink_head 45 _ _ hsr, ih]
  | drop hsr ih =>
    have hh := Shrink_head 45 _ _ hsr
    rw [collapseRuns, if_pos ⟨rfl, by rw [← hh]; rfl⟩, ih]

theorem Shrink_flatMap_length (f : Nat → Str) (c : Nat) (s r : Str) (h : Shrink c s r) :
    (r.flatMap f).length ≤ (s.flatMap f).length := by
  induction h with
  | nil => exact Nat.le_refl _
  | keep x _ ih =>
    simp only [List.flatMap_cons, List.length_append]
    omega
  | drop _ ih =>
    simp only [List.flatMap_cons, List.length_append] at ih ⊢
    omega

theorem Replace_collapse_length (R a : Str) :
    (Replace (collapseRuns a) [45] R).length ≤ (Replace (collapseFixed a) [45] R).length := by
  have h1 : Shrink 45 (collapseFixed a) (collapseRuns (collapseFixed a)) :=
    Shrink_collapseRuns _
  rw [← collapseRuns_of_Shrink a _ (Shrink_collapseFixed a)] at h1
  simp only [Replace, if_neg (List.cons_ne_nil _ _), replaceAux_single]
  exact Shrink_flatMap_length _ 45 _ _ h1

theorem collapseRuns_run (b : Str) (hb : b.head? ≠ some 45) :
    ∀ k : Nat, collapseRuns (List.replicate (k + 1) 45 ++ b) = 45 :: collapseRuns b := by
  intro k
  induction k with
  | zero =>
    show collapseRuns (45 :: b) = 45 :: collapseRuns b
    rw [collapseRuns, if_neg (fun h => hb h.2)]
  | succ j ih =>
    rw [List.replicate_succ, List.cons_append, collapseRuns, if_pos ⟨rfl, rfl⟩, ih]

theorem collapseRuns_append (t : Str) :
    ∀ a : Str, a.getLast? ≠ some 45 → collapseRuns (a ++ t) = collapseRuns a ++ collapseRuns t := by
  intro a
  induction a with
  | nil => intro _; rfl
  | cons x a2 ih =>
    intro ha
    cases a2 with
    | nil =>
      have hx : x ≠ 45 := fun e => ha (by rw [e]; rfl)
      simp only [List.cons_append, List.nil_append, collapseRuns]
      rw [if_neg (fun h => hx h.1), if_neg (fun h => hx h.1)]
      rfl
    | cons y a3 =>
      have ha2 : (y :: a3).getLast? ≠ some 45 := by
        rwa [List.getLast?_cons_cons] at ha
      have e := ih ha2
      simp only [List.cons_append] at e ⊢
      by_cases h : x = 45 ∧ y = 45
      · rw [collapseRuns, if_pos ⟨h.1, by rw [h.2]; rfl⟩, e]
        conv_rhs => rw [collapseRuns, if_pos ⟨h.1, by rw [h.2]; rfl⟩]
      · have hc : ¬(x = 45 ∧ (y :: (a3 ++ t)).head? = some 45) := by
          intro hh
          exact h ⟨hh.1, Option.some.inj hh.2⟩
        have hc2 : ¬(x = 45 ∧ (y :: a3).head? = some 45) := by
          intro hh
          exact h ⟨hh.1, Option.some.inj hh.2⟩
        rw [collapseRuns, if_neg hc, e]
        conv_rhs => rw [collapseRuns, if_neg hc2]
        rfl

theorem collapseRuns_context (a b : Str) (n : Nat) (hn : 1 ≤ n)
    (ha : a.getLast? ≠ some 45) (hb : b.head? ≠ some 45) :
    collapseRuns (a ++ Repeat (bytes "-") n ++ b) =
      collapseRuns a ++ [45] ++ collapseRuns b := by
  obtain ⟨k, rfl⟩ : ∃ k, n = k + 1 := ⟨n - 1, by omega⟩
  rw [List.append_assoc, collapseRuns_append _ a ha, Repeat_dash_eq, collapseRuns_run b hb k]
  simp

/-! ## The claims -/

/-- C1: punctuation survives `Purify` (the regular-expression replacement is dropped)
and is turned into spaces after the sort: with `" "` configured and no stop word, the
field `"b.a b"` gives `"b b a"`, whose tokens `b`, `b`, `a` repeat `b` and put `a`
after `b`. -/
theorem C1_tokens_unsorted_and_repeated :
    TokenizeStrings asciiLib [] (mkUtils (bytes " ") (bytes "en")) [bytes "b.a b"] =
      some (bytes "b b a") ∧
    Split (bytes "b b a") (bytes " ") = [bytes "b", bytes "b", bytes "a"] ∧
    strLess (bytes "a") (bytes "b") = true := by
  decide

/-- C2: a stop word that reaches the stop-word step glued to punctuation is not
removed and becomes a token afterwards: with `"a"` registered for `"en"` the field
`"b.a"` gives `"b a"`, which has the token `a`. The example of the claim holds:
with `"the"` registered, `"the quick the fox"` gives `"fox quick"`. -/
theorem C2_stop_word_survives :
    TokenizeStrings asciiLib [(bytes "en", [bytes "a"])] (mkUtils (bytes " ") (bytes "en"))
      [bytes "b.a"] = some (bytes "b a") ∧
    bytes "a" ∈ Split (bytes "b a") (bytes " ") ∧
    TokenizeStrings asciiLib [(bytes "en", [bytes "the"])]
      (mkUtils (bytes " ") (bytes "en")) [bytes "the quick the fox"] =
        some (bytes "fox quick") := by
  decide

/-- C3: the separator `" "` that `TokenizeStrings` passes to `Purify` is not used,
so the result follows the configured `PurifyReplacer`: the field `"a b"` gives `"a b"`
when `" "` is configured and `"-a-b"` when `"-"` is configured, all else equal. -/
theorem C3_tokenize_depends_on_replacer :
    TokenizeStrings asciiLib [] (mkUtils (bytes " ") (bytes "en")) [bytes "a b"] =
      some (bytes "a b") ∧
    TokenizeStrings asciiLib [] (mkUtils (bytes "-") (bytes "en")) [bytes "a b"] =
      some (bytes "-a-b") := by
  decide

/-- C4: `Purify` reads the configured `PurifyReplacer` and never its argument: the
result is the same for any two separator arguments, and with `"_"` configured the
call `Purify("a b", " ")` gives `"a_b"`, not `"a b"`. -/
theorem C4_purify_uses_configured_replacer (L : Lib) :
    (∀ (u : Utils) (s sep sep2 : Str), Purify L u s sep = Purify L u s sep2) ∧
    Purify L (mkUtils (bytes "_") (bytes "en")) (bytes "a b") (bytes " ") =
      some (bytes "a_b") :=
  ⟨fun _ _ _ _ => rfl, rfl⟩

/-- C5: `UniqueInt` and `UniqueStrings` keep exactly the positions whose value does not
occur earlier, so the result has no repeated value and has exactly the values of the input; the empty input gives the empty list and `[3,1,3,2,1]` gives
`[3,1,2]`. -/
theorem C5_unique_first_occurrences :
    (∀ xs : List Int, UniqueInt xs = firstOccurrences xs ∧ (UniqueInt xs).Nodup ∧
      ∀ a, a ∈ UniqueInt xs ↔ a ∈ xs) ∧
    (∀ xs : List Str, UniqueStrings xs = firstOccurrences xs ∧ (UniqueStrings xs).Nodup ∧
      ∀ a, a ∈ UniqueStrings xs ↔ a ∈ xs) ∧
    UniqueInt [] = [] ∧ UniqueStrings [] = [] ∧ UniqueInt [3, 1, 3, 2, 1] = [3, 1, 2] := by
  have once : ∀ {α : Type} [DecidableEq α] (xs : List α),
      ((xs.foldl uniqueStep ([], [])).1).Nodup ∧
      ∀ a, a ∈ (xs.foldl uniqueStep ([], [])).1 ↔ a ∈ xs := by
    intro α _ xs
    obtain ⟨hnd, hmem⟩ := uniqueStep_foldl_inv xs [] [] (fun _ => Iff.rfl) List.nodup_nil
    refine ⟨hnd, fun a => ?_⟩
    rw [hmem a]
    simp
  refine ⟨fun xs => ⟨uniqueStep_foldl_nil xs, once xs⟩,
    fun xs => ⟨uniqueStep_foldl_nil xs, once xs⟩, rfl, rfl, by decide⟩

/-- C6: in character mode the limit is clamped against the length of the raw input
and the slice is taken from the stripped input: when the stripper turns `<b>a</b>`
into `a`, the call with limit 5 has no result (slice bound out of range). -/
theorem C6_shorten_fails_on_tagged_input (L : Lib)
    (h : L.StripTags (bytes "<b>a</b>") = bytes "a") :
    ShortenString L (bytes "<b>a</b>") 5 false false = none := by
  simp only [ShortenString, h]
  decide

/-- The instance `asciiLib` strips `<b>a</b>` to `a`, and the call has no result. -/
theorem C6_shorten_fails_on_tagged_input_witness :
    asciiLib.StripTags (bytes "<b>a</b>") = bytes "a" ∧
    ShortenString asciiLib (bytes "<b>a</b>") 5 false false = none :=
  ⟨by decide, C6_shorten_fails_on_tagged_input asciiLib (by decide)⟩

/-- C7: the ellipsis is dropped only when the word count is strictly below the limit:
`"a b"` has two words, and with limit 2 in word mode the result is `"a b..."`. -/
theorem C7_ellipsis_at_exact_word_count (L : Lib)
    (h : L.StripTags (bytes "a b") = bytes "a b") :
    (strippedWords L (bytes "a b")).length ≤ 2 ∧
    ShortenString L (bytes "a b") 2 true true = some (bytes "a b...") := by
  simp only [ShortenString, strippedWords, h]
  decide

/-- The instance `asciiLib` leaves `a b` unchanged, and the call gives `a b...`. -/
theorem C7_ellipsis_at_exact_word_count_witness :
    asciiLib.StripTags (bytes "a b") = bytes "a b" ∧
    (strippedWords asciiLib (bytes "a b")).length ≤ 2 ∧
    ShortenString asciiLib (bytes "a b") 2 true true = some (bytes "a b...") :=
  ⟨by decide, C7_ellipsis_at_exact_word_count asciiLib (by decide)⟩

/-- C8 fails as stated: the input `" "` has the two (empty) words of `Split`, and with
limit 2 the first `min 2 2` words joined give `" "`; the code has already clamped
the limit to the byte length 1 of the raw input and returns `""`. -/
theorem C8_counterexample_all_space_input :
    ¬ ∃ sfx : Str, (sfx = [] ∨ sfx = bytes "...") ∧
      ShortenString asciiLib (bytes " ") 2 true false =
        some (Join ((strippedWords asciiLib (bytes " ")).take
          (min 2 (strippedWords asciiLib (bytes " ")).length)) (bytes " ") ++ sfx) := by
  rintro ⟨sfx, hs | hs, h⟩ <;> subst hs <;> revert h <;> decide

/-- C8 (amended): in word mode, for a non-empty input and a limit `≥ 0`, the result is
the first `min (min limit (byte length of the raw input)) n` words of the tag-stripped
input joined by single spaces, `n` being the number of its words, followed by `"..."`
exactly when `addEllipsis` is set and `n` is not below the clamped limit; the words
kept are at most `limit`. -/
theorem C8_word_mode_first_words (L : Lib) (str : Str) (limit : Int) (addEllipsis : Bool)
    (hne : str ≠ []) (hl : 0 ≤ limit) :
    ShortenString L str limit true addEllipsis =
      some (Join ((strippedWords L str).take
          (min (min limit.toNat str.length) (strippedWords L str).length)) (bytes " ") ++
        (if addEllipsis = true ∧ min limit.toNat str.length ≤ (strippedWords L str).length
          then bytes "..." else [])) ∧
    ((strippedWords L str).take
      (min (min limit.toNat str.length) (strippedWords L str).length)).length ≤ limit.toNat := by
  obtain ⟨n, rfl⟩ := Int.eq_ofNat_of_zero_le hl
  constructor
  · simp only [ShortenString, strippedWords, len, if_neg hne, Bool.not_true,
      Bool.false_eq_true, if_false, Int.toNat_ofNat, clamp_min, decide_eq_true_eq,
      if_pos (Nat.min_le_right _ _)]
    by_cases h2 : ((Split (L.StripTags str) (bytes " ")).length : Int) <
        ((min n str.length : Nat) : Int)
    · have e3 : ¬ min n str.length ≤ (Split (L.StripTags str) (bytes " ")).length := by
        omega
      simp only [h2, e3, if_true, and_false, if_false, Bool.false_eq_true, List.append_nil]
    · have e3 : min n str.length ≤ (Split (L.StripTags str) (bytes " ")).length := by
        omega
      cases addEllipsis <;>
        simp only [h2, e3, if_true, and_true, and_self, true_and, false_and, if_false,
          Bool.false_eq_true, List.append_nil]
  · simp only [Int.toNat_ofNat, List.length_take]
    omega

/-- The scenario of the specification: two of three words are kept and the ellipsis
is appended. -/
theorem C8_word_mode_first_words_witness :
    bytes "<p>Hello World Example</p>" ≠ [] ∧ (0 : Int) ≤ 2 ∧
    ShortenString asciiLib (bytes "<p>Hello World Example</p>") 2 true true =
      some (bytes "Hello World...") :=
  ⟨by decide, by decide,
    (C8_word_mode_first_words asciiLib (bytes "<p>Hello World Example</p>") 2 true
      (by decide) (by decide)).1.trans (by decide)⟩

/-- C9: in character mode with a limit `≥ 0`, every result of `ShortenString` is an
initial segment of the tag-stripped input and has at most `limit` bytes; a result
exists whenever the limit clamped to the raw length does not exceed the length of
the stripped input, and it is then the initial segment of that many bytes. -/
theorem C9_char_mode_initial_segment (L : Lib) (str : Str) (limit : Int)
    (addEllipsis : Bool) (hl : 0 ≤ limit) :
    (∀ r, ShortenString L str limit false addEllipsis = some r →
      r <+: L.StripTags str ∧ (r.length : Int) ≤ limit) ∧
    (min limit.toNat str.length ≤ (L.StripTags str).length →
      ShortenString L str limit false addEllipsis =
        some ((L.StripTags str).take (min limit.toNat str.length))) := by
  obtain ⟨n, rfl⟩ := Int.eq_ofNat_of_zero_le hl
  by_cases hne : str = []
  · subst hne
    simp [ShortenString]
  · simp only [ShortenString, len, if_neg hne, Bool.not_false, if_true, clamp_min,
      Int.toNat_ofNat]
    constructor
    · intro r hr
      split_ifs at hr with hb
      · cases hr
        refine ⟨⟨List.drop _ _, List.take_append_drop _ _⟩, ?_⟩
        rw [List.length_take]
        omega
    · intro hb
      rw [if_pos hb]

/-- Three bytes of the stripped text `hello` are kept. -/
theorem C9_char_mode_initial_segment_witness :
    (0 : Int) ≤ 3 ∧
    ShortenString asciiLib (bytes "<i>hello</i>") 3 false false = some (bytes "hel") :=
  ⟨by decide,
    ((C9_char_mode_initial_segment asciiLib (bytes "<i>hello</i>") 3 false (by decide)).2
      (by decide)).trans (by decide)⟩

/-- C10: the regular-expression replacement is computed and dropped: with `"-"` as
configured and as passed separator, `Purify("a!b", "-")` is `"a!b"`, whose byte `!` is
neither alphanumeric nor part of the separator; the dropped value is `"a-b"`. -/
theorem C10_purify_keeps_punctuation (L : Lib) :
    Purify L (mkUtils (bytes "-") (bytes "en")) (bytes "a!b") (bytes "-") =
      some (bytes "a!b") ∧
    isAlnum 33 = false ∧ 33 ∉ bytes "-" ∧ 33 ∈ bytes "a!b" ∧
    replaceNonAlnumRuns (bytes "-") false (bytes "a!b") = bytes "a-b" :=
  ⟨rfl, by decide, by decide, by decide, by decide⟩

/-- C11 fails as stated: a run of six separators is collapsed to one. The input with
six spaces between two letters has the steps 1-2 form `a------b` and the output `a-b`,
which is also what the general collapse gives. -/
theorem C11_counterexample_run_of_six :
    purifyPrepare asciiLib (spacedInput 6) = bytes "a------b" ∧
    Purify asciiLib (mkUtils (bytes "-") (bytes "en")) (spacedInput 6) (bytes "-") =
      some (bytes "a-b") ∧
    collapseRuns (purifyPrepare asciiLib (spacedInput 6)) = bytes "a-b" := by
  decide

/-- C11 (amended): when the steps 1-2 form of the input is `a ++ run ++ b`, the run
being `n` default separators with no separator next to it on either side, the run is
collapsed to one copy of the configured separator for every `n` from 6 to 38; for
`n = 39` two copies are left, and then, the configured separator not being empty, the
output differs from the one the general collapse of every run to one separator
gives. -/
theorem C11_partial_collapse_at_39 (L : Lib) (o : Options) (s sep a b : Str) (n : Nat)
    (hform : purifyPrepare L s = a ++ Repeat (bytes "-") n ++ b)
    (ha : a.getLast? ≠ some 45) (hb : b.head? ≠ some 45) :
    (6 ≤ n → n ≤ 38 →
      Purify L { options := some o } s sep =
        some (Replace (collapseFixed a) (bytes "-") o.PurifyReplacer ++ o.PurifyReplacer ++
          Replace (collapseFixed b) (bytes "-") o.PurifyReplacer)) ∧
    (n = 39 →
      Purify L { options := some o } s sep =
        some (Replace (collapseFixed a) (bytes "-") o.PurifyReplacer ++
          (o.PurifyReplacer ++ o.PurifyReplacer) ++
          Replace (collapseFixed b) (bytes "-") o.PurifyReplacer)) ∧
    (n = 39 → o.PurifyReplacer ≠ [] →
      Purify L { options := some o } s sep ≠
        some (Replace (collapseRuns (purifyPrepare L s)) (bytes "-") o.PurifyReplacer)) := by
  have h39 : n = 39 →
      Purify L { options := some o } s sep =
        some (Replace (collapseFixed a) (bytes "-") o.PurifyReplacer ++
          (o.PurifyReplacer ++ o.PurifyReplacer) ++
          Replace (collapseFixed b) (bytes "-") o.PurifyReplacer) := by
    intro hn
    subst hn
    rw [Purify_run_context L o s sep a b (bytes "--") 39 hform ha hb collapseFixed_run_39]
    have e : Replace (bytes "--") (bytes "-") o.PurifyReplacer =
        o.PurifyReplacer ++ o.PurifyReplacer := by
      have e2 : bytes "--" = [45] ++ [45] := by decide
      rw [e2, bytes_dash, Replace_single_append, Replace_dash_dash]
    rw [e]
  refine ⟨?_, h39, ?_⟩
  · intro h6 h38
    rw [Purify_run_context L o s sep a b (bytes "-") n hform ha hb
      (collapseFixed_short_run n (by omega) (by omega)), bytes_dash, Replace_dash_dash]
  · intro hn hR heq
    rw [h39 hn, hform, collapseRuns_context a b n (by omega) ha hb, bytes_dash,
      Replace_single_append, Replace_single_append, Replace_dash_dash] at heq
    have hlen := congrArg List.length (Option.some.inj heq)
    have hla := Replace_collapse_length o.PurifyReplacer a
    have hlb := Replace_collapse_length o.PurifyReplacer b
    have hR2 : 0 < o.PurifyReplacer.length := List.length_pos.2 hR
    simp only [List.length_append] at hlen
    omega

/-- Twenty spaces between the two letters give `a-b`; thirty-nine give `a--b`, where
the general collapse gives `a-b`. -/
theorem C11_partial_collapse_at_39_witness :
    purifyPrepare asciiLib (spacedInput 20) =
      bytes "a" ++ Repeat (bytes "-") 20 ++ bytes "b" ∧
    purifyPrepare asciiLib (spacedInput 39) =
      bytes "a" ++ Repeat (bytes "-") 39 ++ bytes "b" ∧
    (bytes "a").getLast? ≠ some 45 ∧ (bytes "b").head? ≠ some 45 ∧ 6 ≤ 20 ∧ 20 ≤ 38 ∧
    bytes "-" ≠ [] ∧
    Purify asciiLib (mkUtils (bytes "-") (bytes "en")) (spacedInput 20) (bytes "-") =
      some (bytes "a-b") ∧
    Purify asciiLib (mkUtils (bytes "-") (bytes "en")) (spacedInput 39) (bytes "-") =
      some (bytes "a--b") ∧
    Purify asciiLib (mkUtils (bytes "-") (bytes "en")) (spacedInput 39) (bytes "-") ≠
      some (Replace (collapseRuns (purifyPrepare asciiLib (spacedInput 39))) (bytes "-")
        (bytes "-")) :=
  ⟨by decide, by decide, by decide, by decide, by decide, by decide, by decide,
    ((C11_partial_collapse_at_39 asciiLib _ (spacedInput 20) (bytes "-") (bytes "a")
      (bytes "b") 20 (by decide) (by decide) (by decide)).1 (by decide) (by decide)).trans
      (by decide),
    ((C11_partial_collapse_at_39 asciiLib _ (spacedInput 39) (bytes "-") (bytes "a")
      (bytes "b") 39 (by decide) (by decide) (by decide)).2.1 rfl).trans (by decide),
    (C11_partial_collapse_at_39 asciiLib
      { EnvironmentVarPrefix := [], EnvironmentVarSeparator := [], SentryURL := [],
        PurifyReplacer := bytes "-", PrometheusRequestsVector := none,
        PrometheusHandlersVector := none, LanguageISOCode := bytes "en" }
      (spacedInput 39) (bytes "-") (bytes "a")
      (bytes "b") 39 (by decide) (by decide) (by decide)).2.2 rfl (by decide)⟩

/-- C12: when the steps 1-2 form of the input is `a ++ run ++ b`, the run being 2 to 5
default separators with no separator next to it on either side, the output is the
output of steps 4-5 for `a`, one copy of the configured separator, and the output of
steps 4-5 for `b`. -/
theorem C12_runs_of_two_to_five (L : Lib) (o : Options) (s sep a b : Str) (n : Nat)
    (hn2 : 2 ≤ n) (hn5 : n ≤ 5)
    (hform : purifyPrepare L s = a ++ Repeat (bytes "-") n ++ b)
    (ha : a.getLast? ≠ some 45) (hb : b.head? ≠ some 45) :
    Purify L { options := some o } s sep =
      some (Replace (collapseFixed a) (bytes "-") o.PurifyReplacer ++ o.PurifyReplacer ++
        Replace (collapseFixed b) (bytes "-") o.PurifyReplacer) := by
  rw [Purify_run_context L o s sep a b (bytes "-") n hform ha hb
    (collapseFixed_short_run n (by omega) (by omega)), bytes_dash, Replace_dash_dash]

/-- The input `x &amp; y` has the steps 1-2 form `x---y` and the output `x_y` when `_`
is configured. -/
theorem C12_runs_of_two_to_five_witness :
    2 ≤ 3 ∧ 3 ≤ 5 ∧
    purifyPrepare asciiLib (bytes "x &amp; y") =
      bytes "x" ++ Repeat (bytes "-") 3 ++ bytes "y" ∧
    (bytes "x").getLast? ≠ some 45 ∧ (bytes "y").head? ≠ some 45 ∧
    Purify asciiLib (mkUtils (bytes "_") (bytes "en")) (bytes "x &amp; y") (bytes "-") =
      some (bytes "x_y") :=
  ⟨by decide, by decide, by decide, by decide, by decide,
    (C12_runs_of_two_to_five asciiLib _ (bytes "x &amp; y") (bytes "-") (bytes "x")
      (bytes "y") 3 (by decide) (by decide) (by decide) (by decide) (by decide)).trans
      (by decide)⟩

/-- C13 does not hold of the code: a tab is a whitespace character and survives two
passes. With `"-"` as configured and as passed separator, `Purify("a\tb", "-")` is
`"a\tb"`, and so is `Purify` of that result: only the literal space is replaced, and
the value of the regular-expression replacement, here `"a-b"`, is dropped. -/
theorem C13_tab_survives_two_passes (L : Lib) :
    (Purify L (mkUtils (bytes "-") (bytes "en")) (bytes "a\tb") (bytes "-")).bind
      (fun p => Purify L (mkUtils (bytes "-") (bytes "en")) p (bytes "-")) =
      some (bytes "a\tb") ∧
    asciiSpace 9 = true ∧ 9 ∈ bytes "a\tb" ∧
    replaceNonAlnumRuns (bytes "-") false (bytes "a\tb") = bytes "a-b" :=
  have h : Purify L (mkUtils (bytes "-") (bytes "en")) (bytes "a\tb") (bytes "-") =
      some (bytes "a\tb") := rfl
  ⟨by rw [h]; exact h, by decide, by decide, by decide⟩

/-- C14: de-duplication is idempotent, for `UniqueInt` and for `UniqueStrings`. -/
theorem C14_unique_idempotent :
    (∀ xs : List Int, UniqueInt (UniqueInt xs) = UniqueInt xs) ∧
    (∀ xs : List Str, UniqueStrings (UniqueStrings xs) = UniqueStrings xs) := by
  have idem : ∀ {α : Type} [DecidableEq α] (xs : List α),
      ((xs.foldl uniqueStep ([], [])).1.foldl uniqueStep ([], [])).1 =
        (xs.foldl uniqueStep ([], [])).1 := by
    intro α _ xs
    obtain ⟨hnd, _⟩ := uniqueStep_foldl_inv xs [] [] (fun _ => Iff.rfl) List.nodup_nil
    rw [uniqueStep_foldl_nodup _ [] [] hnd (fun a _ => List.not_mem_nil a)]
    simp
  exact ⟨fun xs => idem xs, fun xs => idem xs⟩

/-- C15: a negative limit gives the result of the limit 0, in both modes and for every
input. -/
theorem C15_negative_limit_is_zero (L : Lib) (s : Str) (limit : Int)
    (useWords addEllipsis : Bool) (hneg : limit < 0) :
    ShortenString L s limit useWords addEllipsis =
      ShortenString L s 0 useWords addEllipsis := by
  have h1 : ¬ (len s < limit) := by
    unfold len
    omega
  have h2 : ¬ (len s < 0) := by
    unfold len
    omega
  simp only [ShortenString, h1, h2, hneg, if_true, if_false, lt_irrefl]

/-- At a negative limit the call on a non-empty input agrees with the limit 0. -/
theorem C15_negative_limit_is_zero_witness :
    (-3 : Int) < 0 ∧
    ShortenString asciiLib (bytes "<b>a b</b>") (-3) true true =
      ShortenString asciiLib (bytes "<b>a b</b>") 0 true true :=
  ⟨by decide, C15_negative_limit_is_zero asciiLib _ (-3) true true (by decide)⟩

/-- C16: with a configured receiver and no entry for its language code, the call
returns, and its result is the one computed with an entry whose list is empty (and
the one computed with an empty table). -/
theorem C16_missing_language_is_no_op (L : Lib) (StopWords : StopTable) (o : Options)
    (fields : List Str) (h : StopWords.lookup o.LanguageISOCode = none) :
    (TokenizeStrings L StopWords { options := some o } fields).isSome = true ∧
    TokenizeStrings L StopWords { options := some o } fields =
      TokenizeStrings L [(o.LanguageISOCode, [])] { options := some o } fields ∧
    TokenizeStrings L StopWords { options := some o } fields =
      TokenizeStrings L [] { options := some o } fields := by
  have e1 : stopWordsOf StopWords o.LanguageISOCode = [] := by
    simp [stopWordsOf, h]
  have e2 : stopWordsOf [(o.LanguageISOCode, [])] o.LanguageISOCode = [] := by
    simp [stopWordsOf, List.lookup]
  have e3 : stopWordsOf [] o.LanguageISOCode = [] := by
    simp [stopWordsOf, List.lookup]
  refine ⟨?_, ?_, ?_⟩
  · simp [TokenizeStrings, Purify]
  · simp only [TokenizeStrings, Option.bind_eq_bind, Option.some_bind, e1, e2]
  · simp only [TokenizeStrings, Option.bind_eq_bind, Option.some_bind, e1, e3]

/-- The table has an entry for `fr` only and the language is `en`. -/
theorem C16_missing_language_is_no_op_witness :
    List.lookup (bytes "en") [(bytes "fr", [bytes "le"])] = none ∧
    TokenizeStrings asciiLib [(bytes "fr", [bytes "le"])] (mkUtils (bytes " ") (bytes "en"))
      [bytes "le chat"] =
    TokenizeStrings asciiLib [] (mkUtils (bytes " ") (bytes "en")) [bytes "le chat"] :=
  ⟨by decide,
    (C16_missing_language_is_no_op asciiLib [(bytes "fr", [bytes "le"])]
      { EnvironmentVarPrefix := [], EnvironmentVarSeparator := [], SentryURL := [],
        PurifyReplacer := bytes " ", PrometheusRequestsVector := none,
        PrometheusHandlersVector := none, LanguageISOCode := bytes "en" }
      [bytes "le chat"] (by decide)).2.2⟩

/-- C17: `Configure` on a non-nil `options` stores it with the language code `en` when
that code was empty and unchanged otherwise; the six other fields are the ones
passed in. -/
theorem C17_configure_defaults_language (u : Utils) (o : Options) :
    ∃ o2 : Options, Configure u (some o) = some { options := some o2 } ∧
      o2.LanguageISOCode =
        (if o.LanguageISOCode = [] then bytes "en" else o.LanguageISOCode) ∧
      o2.EnvironmentVarPrefix = o.EnvironmentVarPrefix ∧
      o2.EnvironmentVarSeparator = o.EnvironmentVarSeparator ∧
      o2.SentryURL = o.SentryURL ∧
      o2.PurifyReplacer = o.PurifyReplacer ∧
      o2.PrometheusRequestsVector = o.PrometheusRequestsVector ∧
      o2.PrometheusHandlersVector = o.PrometheusHandlersVector := by
  refine ⟨_, rfl, ?_⟩
  by_cases h : o.LanguageISOCode = [] <;> simp [h]

/-- C18: when the steps 1-2 form of the input is `a ++ run ++ b`, the run being `n`
default separators with no separator next to it on either side, the run gives one
copy of the configured separator for every `n` from 1 to 38 and two copies for
`n = 39`. -/
theorem C18_runs_up_to_38_collapse (L : Lib) (o : Options) (s sep a b : Str) (n : Nat)
    (hform : purifyPrepare L s = a ++ Repeat (bytes "-") n ++ b)
    (ha : a.getLast? ≠ some 45) (hb : b.head? ≠ some 45) :
    (1 ≤ n → n ≤ 38 →
      Purify L { options := some o } s sep =
        some (Replace (collapseFixed a) (bytes "-") o.PurifyReplacer ++ o.PurifyReplacer ++
          Replace (collapseFixed b) (bytes "-") o.PurifyReplacer)) ∧
    (n = 39 →
      Purify L { options := some o } s sep =
        some (Replace (collapseFixed a) (bytes "-") o.PurifyReplacer ++
          (o.PurifyReplacer ++ o.PurifyReplacer) ++
          Replace (collapseFixed b) (bytes "-") o.PurifyReplacer)) := by
  constructor
  · intro h1 h38
    rw [Purify_run_context L o s sep a b (bytes "-") n hform ha hb
      (collapseFixed_short_run n (by omega) h1), bytes_dash, Replace_dash_dash]
  · intro h39
    subst h39
    rw [Purify_run_context L o s sep a b (bytes "--") 39 hform ha hb collapseFixed_run_39]
    have e : Replace (bytes "--") (bytes "-") o.PurifyReplacer =
        o.PurifyReplacer ++ o.PurifyReplacer := by
      have e2 : bytes "--" = [45] ++ [45] := by decide
      rw [e2, bytes_dash, Replace_single_append, Replace_dash_dash]
    rw [e]

/-- With 38 spaces between `a` and `b` the output is `a-b`, and with 39 it is `a--b`. -/
theorem C18_runs_up_to_38_collapse_witness :
    purifyPrepare asciiLib (spacedInput 38) =
      bytes "a" ++ Repeat (bytes "-") 38 ++ bytes "b" ∧
    (bytes "a").getLast? ≠ some 45 ∧ (bytes "b").head? ≠ some 45 ∧ 1 ≤ 38 ∧ 38 ≤ 38 ∧
    Purify asciiLib (mkUtils (bytes "-") (bytes "en")) (spacedInput 38) (bytes "-") =
      some (bytes "a-b") ∧
    Purify asciiLib (mkUtils (bytes "-") (bytes "en")) (spacedInput 39) (bytes "-") =
      some (bytes "a--b") :=
  ⟨by decide, by decide, by decide, by decide, by decide,
    ((C18_runs_up_to_38_collapse asciiLib _ (spacedInput 38) (bytes "-") (bytes "a")
      (bytes "b") 38 (by decide) (by decide) (by decide)).1 (by decide) (by decide)).trans
      (by decide),
    ((C18_runs_up_to_38_collapse asciiLib _ (spacedInput 39) (bytes "-") (bytes "a")
      (bytes "b") 39 (by decide) (by decide) (by decide)).2 rfl).trans (by decide)⟩

/-- C19: on clean input `TokenizeStrings` equals its naive reference. When
`PurifyReplacer` is a single space, every field consists of ASCII letters, digits and
spaces and is left as it is by the tag stripper, and no stop word of the active
language contains a space, the result is the token list `naiveTokens` joined by single
spaces; that list is strictly ascending, so sorted and without repetition, and its
members are exactly the lower-cased words of the fields that are not stop words of the
active language. -/
theorem C19_clean_input_matches_reference (L : Lib) (StopWords : StopTable) (o : Options)
    (fields : List Str)
    (hrep : o.PurifyReplacer = bytes " ")
    (hf : ∀ f ∈ fields, ∀ c ∈ f, isAlnum c = true ∨ c = 32)
    (hstrip : ∀ f ∈ fields, L.StripTags f = f)
    (hstop : ∀ w ∈ stopWordsOf StopWords o.LanguageISOCode, 32 ∉ w) :
    TokenizeStrings L StopWords { options := some o } fields =
      some (Join (naiveTokens (stopWordsOf StopWords o.LanguageISOCode) fields)
        (bytes " ")) ∧
    (naiveTokens (stopWordsOf StopWords o.LanguageISOCode) fields).Pairwise
      (fun a b => strLess a b = true) ∧
    ∀ w, w ∈ naiveTokens (stopWordsOf StopWords o.LanguageISOCode) fields ↔
      ((∃ f ∈ fields, w ∈ wordsOf (f.map lowerByte)) ∧
        w ∉ stopWordsOf StopWords o.LanguageISOCode) :=
  ⟨TokenizeStrings_clean L StopWords o fields hrep hf hstrip hstop,
    naiveTokens_spec (stopWordsOf StopWords o.LanguageISOCode) fields⟩

/-- With the stop word `the`, the fields `The quick` and `the Fox  quick` give
`fox quick`. -/
theorem C19_clean_input_matches_reference_witness :
    (∀ f ∈ [bytes "The quick", bytes "the Fox  quick"],
      asciiLib.StripTags f = f) ∧
    naiveTokens (stopWordsOf [(bytes "en", [bytes "the"])] (bytes "en"))
      [bytes "The quick", bytes "the Fox  quick"] = [bytes "fox", bytes "quick"] ∧
    TokenizeStrings asciiLib [(bytes "en", [bytes "the"])] (mkUtils (bytes " ") (bytes "en"))
      [bytes "The quick", bytes "the Fox  quick"] = some (bytes "fox quick") :=
  ⟨by decide, by decide,
    (C19_clean_input_matches_reference asciiLib [(bytes "en", [bytes "the"])]
      { EnvironmentVarPrefix := [], EnvironmentVarSeparator := [], SentryURL := [],
        PurifyReplacer := bytes " ", PrometheusRequestsVector := none,
        PrometheusHandlersVector := none, LanguageISOCode := bytes "en" }
      [bytes "The quick", bytes "the Fox  quick"]
      (by decide) (by decide) (by decide) (by decide)).1.trans (by decide)⟩

/-- C20: `ShortenString` has no result exactly when the input is non-empty, the mode
is the character mode and the limit clamped to the raw length exceeds the length of
the stripped input; it returns in word mode, and it returns when stripping leaves the
input unchanged. -/
theorem C20_shorten_failure_condition (L : Lib) (s : Str) (limit : Int)
    (useWords addEllipsis : Bool) :
    (ShortenString L s limit useWords addEllipsis = none ↔
      s ≠ [] ∧ useWords = false ∧ ((L.StripTags s).length : Int) < min limit (len s)) ∧
    (useWords = true → (ShortenString L s limit useWords addEllipsis).isSome = true) ∧
    (L.StripTags s = s → (ShortenString L s limit useWords addEllipsis).isSome = true) := by
  by_cases hne : s = []
  · subst hne
    simp [ShortenString]
  · simp only [ShortenString, if_neg hne, len]
    generalize hc : (if (if (s.length : Int) < limit then (s.length : Int) else limit) < 0
      then (0 : Int) else (if (s.length : Int) < limit then (s.length : Int) else limit)) = c
    have hc0 : 0 ≤ c := by
      rw [← hc]; split_ifs <;> omega
    have hc1 : c ≤ (s.length : Int) := by
      rw [← hc]; split_ifs <;> omega
    have hc2 : ∀ k : Nat, (k : Int) < min limit (s.length : Int) ↔ k < c.toNat := by
      intro k
      rw [← hc]; split_ifs <;> omega
    generalize hW : Split (L.StripTags s) (bytes " ") = W
    generalize hd : (if decide ((W.length : Int) < c) = true then (W.length : Int) else c) = d
    have hd1 : (if d < 0 then 0 else d).toNat ≤ W.length := by
      rw [← hd]; split_ifs <;> simp_all
    cases useWords
    · simp only [Bool.not_false, if_true, Bool.false_eq_true, false_implies, true_and,
        ne_eq, hne, not_false_eq_true, hc2]
      refine ⟨?_, ?_⟩
      · split_ifs with hb
        · simp only [reduceCtorEq, false_iff]; omega
        · simp only [true_iff]; omega
      · intro hs
        rw [hs, if_pos (by omega)]
        rfl
    · simp only [Bool.not_true, Bool.false_eq_true, if_false, if_pos hd1, reduceCtorEq,
        false_and, and_false, iff_self, true_and, Option.isSome_some, implies_true]

/-- The stripper leaves `ab` unchanged and the call with limit 7 returns. -/
theorem C20_shorten_failure_condition_witness :
    asciiLib.StripTags (bytes "ab") = bytes "ab" ∧
    (ShortenString asciiLib (bytes "ab") 7 false false).isSome = true :=
  ⟨by decide,
    (C20_shorten_failure_condition asciiLib (bytes "ab") 7 false false).2.2 (by decide)⟩

end GoUtils
